import Mathlib

/-!
Verification development for the mcpkit generation pipeline.

The definitions below are shallow embeddings of the pipeline's source:
* the action-discovery response recovery and schema validation
  (`discoverActions` in `src/services/create/discovery`), including the
  markdown fence stripping and the Zod `DiscoveredActionsResponseSchema`;
* the authentication analyzer fallback (`analyzeAuthenticationState`);
* the authentication orchestrator (`authenticateToWebsite`), modelled as a
  deterministic function of an environment that fixes the outcome of every
  external call (analyzer results, credential lookup, click/autofill
  failures, operator input), producing a result and an event trace;
* the model-provider configuration (`getModel`);
* the URL normalizer (`normalizeUrl`), over an embedding of the WHATWG
  URL parser restricted to the http/https fragment exercised by the code
  (ASCII hosts without userinfo, integer-free of percent-encoding needs,
  literal characters that require no encoding).

Platform builtins (`JSON.parse`, `new URL`, `String.prototype.trim`,
`toLowerCase`, regex replaces) are embedded as executable Lean functions
over `List Char`, each documented at its definition.
-/

/-! ### JavaScript string primitives -/

/-- Whitespace as matched by the JS `\s` class and `String.prototype.trim`,
restricted to the ASCII range (space, tab, LF, CR, VT, FF). -/
def isWsChar (c : Char) : Bool :=
  c = ' ' || c = '\t' || c = '\n' || c = '\r' || c = Char.ofNat 11 || c = Char.ofNat 12

/-- ASCII lowercasing of one char, as `String.prototype.toLowerCase`
restricted to ASCII input. -/
def toLowerChar (c : Char) : Char :=
  if 'A' ≤ c ∧ c ≤ 'Z' then Char.ofNat (c.toNat + 32) else c

/-- ASCII lowercasing of a char list. -/
def jsToLowerL (l : List Char) : List Char := l.map toLowerChar

/-- Drop trailing JS whitespace. -/
def trimEndL (l : List Char) : List Char := (l.reverse.dropWhile isWsChar).reverse

/-- `String.prototype.trim` on a char list. -/
def jsTrimL (l : List Char) : List Char := trimEndL (l.dropWhile isWsChar)

/-- Does `pat` occur as a contiguous substring of `l`?  (JS regex
alternation of plain literals / `String.prototype.includes`.) -/
def containsSub (pat : List Char) : List Char → Bool
  | [] => pat.isPrefixOf []
  | c :: rest => pat.isPrefixOf (c :: rest) || containsSub pat rest

/-- The backtick character (written via its code point). -/
def btick : Char := Char.ofNat 96

/-! ### JSON values and `JSON.parse`

`Json` models the values produced by `JSON.parse`.  Numeric literals are
restricted to integers in this embedding (the discovery schema never
inspects numeric payloads), and `\uXXXX` escapes are decoded without
surrogate pairing. -/

inductive Json where
  | null : Json
  | bool (b : Bool) : Json
  | num (n : Int) : Json
  | str (s : List Char) : Json
  | arr (elems : List Json) : Json
  | obj (fields : List (List Char × Json)) : Json

/-- JSON insignificant whitespace (RFC 8259: space, tab, LF, CR). -/
def isJsonWs (c : Char) : Bool :=
  c = ' ' || c = '\t' || c = '\n' || c = '\r'

def isDigitChar (c : Char) : Bool := '0' ≤ c ∧ c ≤ '9'

def hexVal (c : Char) : Option Nat :=
  let n := c.toNat
  if 48 ≤ n ∧ n ≤ 57 then some (n - 48)
  else if 97 ≤ n ∧ n ≤ 102 then some (n - 87)
  else if 65 ≤ n ∧ n ≤ 70 then some (n - 55)
  else none

def unescapeChar (c : Char) : Option Char :=
  if c = '"' then some '"'
  else if c = '\\' then some '\\'
  else if c = '/' then some '/'
  else if c = 'b' then some (Char.ofNat 8)
  else if c = 'f' then some (Char.ofNat 12)
  else if c = 'n' then some '\n'
  else if c = 'r' then some '\r'
  else if c = 't' then some '\t'
  else none

/-- Body of a JSON string literal, after the opening quote. -/
def parseStrBody : Nat → List Char → Option (List Char × List Char)
  | 0, _ => none
  | _ + 1, [] => none
  | fuel + 1, c :: rest =>
    if c = '"' then some ([], rest)
    else if c = '\\' then
      match rest with
      | [] => none
      | e :: rest2 =>
        if e = 'u' then
          match rest2 with
          | h1 :: h2 :: h3 :: h4 :: rest3 =>
            match hexVal h1, hexVal h2, hexVal h3, hexVal h4 with
            | some a, some b, some c3, some d =>
              match parseStrBody fuel rest3 with
              | some (s, r) => some (Char.ofNat (((a * 16 + b) * 16 + c3) * 16 + d) :: s, r)
              | none => none
            | _, _, _, _ => none
          | _ => none
        else
          match unescapeChar e with
          | some ec =>
            match parseStrBody fuel rest2 with
            | some (s, r) => some (ec :: s, r)
            | none => none
          | none => none
    else if c.toNat < 32 then none
    else
      match parseStrBody fuel rest with
      | some (s, r) => some (c :: s, r)
      | none => none

def digitsToNat (ds : List Char) : Nat :=
  ds.foldl (fun a c => a * 10 + (c.toNat - 48)) 0

/-- A JSON integer token (leading-zero rule enforced; fraction and
exponent forms are outside this embedding). -/
def parseNatTok (l : List Char) : Option (Nat × List Char) :=
  let ds := l.takeWhile isDigitChar
  let rest := l.dropWhile isDigitChar
  if ds = [] then none
  else if 1 < ds.length ∧ ds.head? = some '0' then none
  else
    match rest with
    | '.' :: _ => none
    | 'e' :: _ => none
    | 'E' :: _ => none
    | _ => some (digitsToNat ds, rest)

def parseNumTok (l : List Char) : Option (Json × List Char) :=
  match l with
  | '-' :: rest =>
    match parseNatTok rest with
    | some (n, r) => some (.num (-(n : Int)), r)
    | none => none
  | _ =>
    match parseNatTok l with
    | some (n, r) => some (.num (n : Int), r)
    | none => none

mutual

/-- One JSON value (leading whitespace allowed), returning the remainder. -/
def parseVal : Nat → List Char → Option (Json × List Char)
  | 0, _ => none
  | fuel + 1, l =>
    match l.dropWhile isJsonWs with
    | 'n' :: 'u' :: 'l' :: 'l' :: rest => some (.null, rest)
    | 't' :: 'r' :: 'u' :: 'e' :: rest => some (.bool true, rest)
    | 'f' :: 'a' :: 'l' :: 's' :: 'e' :: rest => some (.bool false, rest)
    | '"' :: rest =>
      match parseStrBody (rest.length + 1) rest with
      | some (s, r) => some (.str s, r)
      | none => none
    | '[' :: rest =>
      (match (rest.dropWhile isJsonWs) with
      | ']' :: r2 => some (.arr [], r2)
      | r1 =>
        match parseVal fuel r1 with
        | some (v, r2) =>
          match parseArrTail fuel r2 with
          | some (vs, r3) => some (.arr (v :: vs), r3)
          | none => none
        | none => none)
    | '{' :: rest =>
      (match (rest.dropWhile isJsonWs) with
      | '}' :: r2 => some (.obj [], r2)
      | r1 =>
        match parseMember fuel r1 with
        | some (kv, r2) =>
          match parseObjTail fuel r2 with
          | some (kvs, r3) => some (.obj (kv :: kvs), r3)
          | none => none
        | none => none)
    | c :: rest =>
      if c = '-' || isDigitChar c then parseNumTok (c :: rest) else none
    | [] => none

/-- Array elements after the first: `(',' value)* ']'`. -/
def parseArrTail : Nat → List Char → Option (List Json × List Char)
  | 0, _ => none
  | fuel + 1, l =>
    match l.dropWhile isJsonWs with
    | ']' :: rest => some ([], rest)
    | ',' :: rest =>
      match parseVal fuel rest with
      | some (v, r2) =>
        match parseArrTail fuel r2 with
        | some (vs, r3) => some (v :: vs, r3)
        | none => none
      | none => none
    | _ => none

/-- One `"key": value` member (leading whitespace allowed). -/
def parseMember : Nat → List Char → Option ((List Char × Json) × List Char)
  | 0, _ => none
  | fuel + 1, l =>
    match l.dropWhile isJsonWs with
    | '"' :: rest =>
      (parseStrBody (rest.length + 1) rest).bind (fun kr =>
        match kr.2.dropWhile isJsonWs with
        | ':' :: r2 => (parseVal fuel r2).map (fun vr => ((kr.1, vr.1), vr.2))
        | _ => none)
    | _ => none

/-- Object members after the first: `(',' member)* '}'`. -/
def parseObjTail : Nat → List Char → Option (List (List Char × Json) × List Char)
  | 0, _ => none
  | fuel + 1, l =>
    match l.dropWhile isJsonWs with
    | '}' :: rest => some ([], rest)
    | ',' :: rest =>
      match parseMember fuel rest with
      | some (kv, r2) =>
        match parseObjTail fuel r2 with
        | some (kvs, r3) => some (kv :: kvs, r3)
        | none => none
      | none => none
    | _ => none

end

/-- `JSON.parse`: a single value with surrounding whitespace, consuming
the entire input. -/
def parseJson (l : List Char) : Option Json :=
  match parseVal (2 * l.length + 2) l with
  | some (j, rest) => if rest.dropWhile isJsonWs = [] then some j else none
  | none => none

/-! ### Action discovery: response cleanup and schema validation

Embeds `discoverActions` from the discovery service: the agent's final
message is trimmed, markdown code fences are stripped
(`.replace(/^```json\s*/i, "").replace(/^```\s*/, "")` and
`.replace(/\s*```$/, "")`), the remainder is parsed as JSON and validated
against `DiscoveredActionsResponseSchema`. -/

/-- `.replace(/^```json\s*/i, "")`: strip a leading fence tagged `json`
(case-insensitive) together with the following whitespace. -/
def stripLeadJson (l : List Char) : List Char :=
  if 7 ≤ l.length ∧ l.take 3 = [btick, btick, btick] ∧
      jsToLowerL ((l.drop 3).take 4) = "json".data then
    (l.drop 7).dropWhile isWsChar
  else l

/-- `.replace(/^```\s*/, "")`: strip a leading untagged fence together
with the following whitespace. -/
def stripLeadPlain (l : List Char) : List Char :=
  if l.take 3 = [btick, btick, btick] then (l.drop 3).dropWhile isWsChar else l

/-- `.replace(/\s*```$/, "")`: strip a trailing fence together with the
whitespace preceding it. -/
def stripTrailFence (l : List Char) : List Char :=
  if l.reverse.take 3 = [btick, btick, btick] then
    ((l.reverse.drop 3).dropWhile isWsChar).reverse
  else l

/-- The discoverer's response cleanup: trim, strip fences, trim again. -/
def cleanupResponse (l : List Char) : List Char :=
  jsTrimL (stripTrailFence (stripLeadPlain (stripLeadJson (jsTrimL l))))

/-- Parameter `type` enum of `DiscoveredActionSchema`. -/
inductive ParamType where
  | string : ParamType
  | number : ParamType
  | boolean : ParamType
deriving DecidableEq

/-- One entry of an action's `parameters` array. -/
structure ActionParam where
  name : List Char
  type : ParamType
  description : List Char
  required : Option Bool

/-- A validated `DiscoveredAction` (the output of
`DiscoveredActionSchema.parse`). -/
structure DiscoveredAction where
  name : List Char
  description : List Char
  steps : List (List Char)
  parameters : Option (List ActionParam)
  extractionSchema : Option (List (List Char × Json))

/-- Field lookup on a parsed JSON object.  `JSON.parse` keeps the last
occurrence of a duplicated key, so lookup returns the last binding. -/
def jlookup (fields : List (List Char × Json)) (k : List Char) : Option Json :=
  (fields.filter (fun p => p.1 = k)).getLast?.map (fun p => p.2)

def decodeStr : Json → Option (List Char)
  | .str s => some s
  | _ => none

def decodeBool (j : Json) : Option Bool :=
  match j with
  | .bool b => some b
  | _ => none

def decodeStrList : Json → Option (List (List Char))
  | .arr l => l.mapM decodeStr
  | _ => none

/-- `z.enum(["string", "number", "boolean"])`. -/
def decodeParamType : Json → Option ParamType
  | .str s =>
    if s = "string".data then some .string
    else if s = "number".data then some .number
    else if s = "boolean".data then some .boolean
    else none
  | _ => none

/-- One parameter object of `DiscoveredActionSchema`. -/
def decodeParam (j : Json) : Option ActionParam :=
  match j with
  | .obj f =>
    match jlookup f "name".data >>= decodeStr,
          jlookup f "type".data >>= decodeParamType,
          jlookup f "description".data >>= decodeStr with
    | some n, some ty, some d =>
      match jlookup f "required".data with
      | none => some ⟨n, ty, d, none⟩
      | some v =>
        match decodeBool v with
        | some b => some ⟨n, ty, d, some b⟩
        | none => none
    | _, _, _ => none
  | _ => none

/-- `DiscoveredActionSchema.parse`: `name`, `description` and `steps` are
required, `parameters` is an optional array of parameter objects,
`extractionSchema` an optional record. -/
def decodeAction (j : Json) : Option DiscoveredAction :=
  match j with
  | .obj f =>
    match jlookup f "name".data >>= decodeStr,
          jlookup f "description".data >>= decodeStr,
          jlookup f "steps".data >>= decodeStrList with
    | some n, some d, some st =>
      match jlookup f "parameters".data with
      | none =>
        match jlookup f "extractionSchema".data with
        | none => some ⟨n, d, st, none, none⟩
        | some (.obj g) => some ⟨n, d, st, none, some g⟩
        | some _ => none
      | some pv =>
        match decodeStrListAux pv with
        | some ps =>
          match jlookup f "extractionSchema".data with
          | none => some ⟨n, d, st, some ps, none⟩
          | some (.obj g) => some ⟨n, d, st, some ps, some g⟩
          | some _ => none
        | none => none
    | _, _, _ => none
  | _ => none
where
  decodeStrListAux : Json → Option (List ActionParam)
    | .arr l => l.mapM decodeParam
    | _ => none

/-- `DiscoveredActionsResponseSchema.parse`: an object whose `actions`
field is an array of valid actions. -/
def decodeResponse (j : Json) : Option (List DiscoveredAction) :=
  match j with
  | .obj f =>
    match jlookup f "actions".data with
    | some (.arr l) => l.mapM decodeAction
    | _ => none
  | _ => none

/-- Failure modes of discovery response processing (spec §7 taxonomy):
a JSON parse failure is `MalformedDiscoveryResponse`, a schema violation
is `SchemaValidationFailed`. -/
inductive DiscoverError where
  | malformedResponse : DiscoverError
  | schemaValidationFailed : DiscoverError
deriving DecidableEq

/-- `discoverActions`, from the agent's final message onward: cleanup,
`JSON.parse`, Zod validation; returns the validated actions. -/
def discoverActions (responseMessage : String) : Except DiscoverError (List DiscoveredAction) :=
  match parseJson (cleanupResponse responseMessage.data) with
  | none => .error .malformedResponse
  | some j =>
    match decodeResponse j with
    | none => .error .schemaValidationFailed
    | some acts => .ok acts

/-! ### C1: catalog validation is all-or-nothing -/

/-- If any element of the `actions` array fails validation, validating the
whole array fails. -/
theorem mapM_decodeAction_none {l : List Json} {b : Json}
    (hb : b ∈ l) (hfail : decodeAction b = none) :
    l.mapM decodeAction = none := by
  induction l with
  | nil => cases hb
  | cons x xs ih =>
    rw [List.mapM_cons]
    rcases List.mem_cons.mp hb with hx | hxs
    · subst hx
      simp [hfail]
    · cases hx : decodeAction x with
      | none => simp [hx]
      | some y =>
        have h2 := ih hxs
        unfold List.mapM at h2
        simp [hx, h2]

/-- An action object with no `description` key fails validation. -/
theorem decodeAction_no_description {g : List (List Char × Json)}
    (hdesc : jlookup g "description".data = none) :
    decodeAction (Json.obj g) = none := by
  cases h1 : jlookup g "name".data >>= decodeStr with
  | none => simp [decodeAction, h1, hdesc]
  | some n => simp [decodeAction, h1, hdesc]

/-- C1: for every discovery response whose text parses as JSON carrying an
`actions` array that contains one action conforming to the schema and one
action object missing the required `description` field, `discoverActions`
fails entirely with `SchemaValidationFailed`; no partial catalog is
returned. -/
theorem discoverActions_allOrNothing (s : String) (j : Json)
    (fields : List (List Char × Json)) (l : List Json)
    (hparse : parseJson (cleanupResponse s.data) = some j)
    (hobj : j = Json.obj fields)
    (hacts : jlookup fields "actions".data = some (Json.arr l))
    (hgood : ∃ a ∈ l, (decodeAction a).isSome)
    (hbad : ∃ b g, b ∈ l ∧ b = Json.obj g ∧ jlookup g "description".data = none) :
    discoverActions s = Except.error DiscoverError.schemaValidationFailed := by
  obtain ⟨b, g, hbl, hbg, hdesc⟩ := hbad
  have hfail : decodeAction b = none := by
    rw [hbg]; exact decodeAction_no_description hdesc
  have hmap : List.mapM decodeAction l = none := mapM_decodeAction_none hbl hfail
  have hmap2 : List.mapM.loop decodeAction l [] = none := by
    unfold List.mapM at hmap
    exact hmap
  have hresp : decodeResponse j = none := by
    rw [hobj]
    simp [decodeResponse, hacts, hmap, hmap2]
  simp [discoverActions, hparse, hresp]

/-- Concrete instance for C1: a response with one valid action and one
action missing `description`. -/
theorem discoverActions_allOrNothing_witness :
    discoverActions "\x7b\"actions\":[\x7b\"name\":\"a\",\"description\":\"d\",\"steps\":[]\x7d,\x7b\"name\":\"b\",\"steps\":[]\x7d]\x7d"
      = Except.error DiscoverError.schemaValidationFailed :=
  discoverActions_allOrNothing _
    (Json.obj [("actions".data, Json.arr
      [Json.obj [("name".data, Json.str "a".data), ("description".data, Json.str "d".data),
        ("steps".data, Json.arr [])],
       Json.obj [("name".data, Json.str "b".data), ("steps".data, Json.arr [])]])])
    [("actions".data, Json.arr
      [Json.obj [("name".data, Json.str "a".data), ("description".data, Json.str "d".data),
        ("steps".data, Json.arr [])],
       Json.obj [("name".data, Json.str "b".data), ("steps".data, Json.arr [])]])]
    [Json.obj [("name".data, Json.str "a".data), ("description".data, Json.str "d".data),
      ("steps".data, Json.arr [])],
     Json.obj [("name".data, Json.str "b".data), ("steps".data, Json.arr [])]]
    rfl rfl rfl
    ⟨Json.obj [("name".data, Json.str "a".data), ("description".data, Json.str "d".data),
      ("steps".data, Json.arr [])], List.mem_cons_self _ _, by rfl⟩
    ⟨Json.obj [("name".data, Json.str "b".data), ("steps".data, Json.arr [])],
      [("name".data, Json.str "b".data), ("steps".data, Json.arr [])], by simp, rfl, rfl⟩

/-! ### C6: fence stripping

A "JSON payload" is represented as the serialization of a `Json` value by
the compact serializer below.  Only the payload's edge characters matter
for fence stripping: a serialized payload never begins or ends with
whitespace or a backtick. -/

/-- Decimal digit characters of a natural number. -/
def natChars (n : Nat) : List Char :=
  if n = 0 then (['0'] : List Char)
  else (Nat.digits 10 n).reverse.map (fun d => Char.ofNat (d + 48))

/-- Decimal rendering of an integer. -/
def intChars (i : Int) : List Char :=
  if i < 0 then '-' :: natChars i.natAbs else natChars i.natAbs

def hexDigitChar (n : Nat) : Char :=
  if n < 10 then Char.ofNat (n + 48) else Char.ofNat (n + 87)

/-- JSON string escaping for one character. -/
def escChar (c : Char) : List Char :=
  if c = '"' then ['\\', '"']
  else if c = '\\' then ['\\', '\\']
  else if c.toNat < 32 then
    '\\' :: 'u' :: '0' :: '0' :: [hexDigitChar (c.toNat / 16), hexDigitChar (c.toNat % 16)]
  else [c]

/-- Body and closing quote of a serialized JSON string. -/
def strTail (s : List Char) : List Char :=
  s.foldr (fun c acc => escChar c ++ acc) ['"']

mutual

/-- Compact serialization of a JSON value. -/
def renderJson : Json → List Char
  | .null => "null".data
  | .bool true => "true".data
  | .bool false => "false".data
  | .num i => intChars i
  | .str s => '"' :: strTail s
  | .arr l => '[' :: (renderElems l ++ [']'])
  | .obj f => '{' :: (renderFields f ++ ['}'])

def renderElems : List Json → List Char
  | [] => []
  | [x] => renderJson x
  | x :: y :: ys => renderJson x ++ ',' :: renderElems (y :: ys)

def renderFields : List (List Char × Json) → List Char
  | [] => []
  | [kv] => '"' :: (strTail kv.1 ++ ':' :: renderJson kv.2)
  | kv :: kv2 :: rest =>
    ('"' :: (strTail kv.1 ++ ':' :: renderJson kv.2)) ++ ',' :: renderFields (kv2 :: rest)

end

/-- The serialized payload, as a `String`. -/
def renderStr (j : Json) : String := ⟨renderJson j⟩

/-- A character that fence stripping can never act on at a payload edge:
neither whitespace nor a backtick. -/
def goodEdgeChar (c : Char) : Bool := !isWsChar c && !(c = btick)

theorem goodEdge_digit : ∀ d, d < 10 → goodEdgeChar (Char.ofNat (d + 48)) = true := by decide

theorem mem_of_head? {α : Type} {l : List α} {c : α} (h : l.head? = some c) : c ∈ l := by
  cases l with
  | nil => cases h
  | cons a t => cases h; exact List.mem_cons_self _ _

theorem mem_of_getLast? {α : Type} {l : List α} {c : α} (h : l.getLast? = some c) : c ∈ l := by
  induction l with
  | nil => cases h
  | cons a t ih =>
    cases t with
    | nil => cases h; exact List.mem_cons_self _ _
    | cons b u =>
      rw [List.getLast?_cons_cons] at h
      exact List.mem_cons_of_mem _ (ih h)

theorem natChars_ne_nil (n : Nat) : natChars n ≠ [] := by
  unfold natChars
  split
  · simp
  · simp [Nat.digits_ne_nil_iff_ne_zero, *]

theorem natChars_good {n : Nat} {c : Char} (h : c ∈ natChars n) : goodEdgeChar c = true := by
  unfold natChars at h
  split at h
  · simp at h
    subst h
    decide
  · simp at h
    obtain ⟨d, hd, rfl⟩ := h
    exact goodEdge_digit d (Nat.digits_lt_base (by norm_num) hd)

theorem intChars_ne_nil (i : Int) : intChars i ≠ [] := by
  unfold intChars
  split
  · simp
  · exact natChars_ne_nil _

theorem intChars_good {i : Int} {c : Char} (h : c ∈ intChars i) : goodEdgeChar c = true := by
  unfold intChars at h
  split at h
  · rcases List.mem_cons.mp h with rfl | h2
    · decide
    · exact natChars_good h2
  · exact natChars_good h

/-- `strTail` always ends with the closing quote. -/
theorem strTail_shape (s : List Char) : ∃ m, strTail s = m ++ ['"'] := by
  induction s with
  | nil => exact ⟨[], rfl⟩
  | cons c t ih =>
    obtain ⟨m, hm⟩ := ih
    exact ⟨escChar c ++ m, by simp [strTail] at hm ⊢; simp [hm]⟩

theorem getLast?_append_cons {α : Type} (l : List α) (c : α) (t : List α) :
    (l ++ c :: t).getLast? = (c :: t).getLast? := by
  induction l
  case nil => rfl
  case cons a u ih =>
    cases u with
    | nil => simp [List.getLast?_cons_cons, ih]
    | cons b v =>
      simp only [List.cons_append] at ih ⊢
      rw [List.getLast?_cons_cons]
      exact ih

theorem getLast?_concat_eq {α : Type} (l : List α) (c : α) : (l ++ [c]).getLast? = some c := by
  rw [getLast?_append_cons]; rfl

theorem renderJson_ne_nil (j : Json) : renderJson j ≠ [] := by
  cases j with
  | null => simp [renderJson]
  | bool b => cases b <;> simp [renderJson]
  | num i => simp only [renderJson]; exact intChars_ne_nil i
  | str s => simp [renderJson]
  | arr l => simp [renderJson]
  | obj f => simp [renderJson]

theorem renderJson_head_good {j : Json} {c : Char}
    (h : (renderJson j).head? = some c) : goodEdgeChar c = true := by
  cases j with
  | null => simp [renderJson] at h; subst h; decide
  | bool b =>
    cases b <;> (simp [renderJson] at h; subst h; decide)
  | num i =>
    simp only [renderJson] at h
    exact intChars_good (mem_of_head? h)
  | str s => simp [renderJson] at h; subst h; decide
  | arr l => simp [renderJson] at h; subst h; decide
  | obj f => simp [renderJson] at h; subst h; decide

theorem renderJson_last_good {j : Json} {c : Char}
    (h : (renderJson j).getLast? = some c) : goodEdgeChar c = true := by
  cases j with
  | null =>
    simp only [renderJson] at h
    have h2 : some 'l' = some c := h
    injection h2 with h3
    subst h3
    decide
  | bool b =>
    cases b <;>
    · simp only [renderJson] at h
      first
      | (have h2 : some 'e' = some c := h
         injection h2 with h3
         subst h3
         decide)
  | num i =>
    simp only [renderJson] at h
    exact intChars_good (mem_of_getLast? h)
  | str s =>
    simp only [renderJson] at h
    obtain ⟨m, hm⟩ := strTail_shape s
    rw [hm] at h
    rw [show '"' :: (m ++ ['"']) = ('"' :: m) ++ ['"'] from rfl, getLast?_concat_eq] at h
    injection h with h3
    subst h3
    decide
  | arr l =>
    simp only [renderJson] at h
    rw [show '[' :: (renderElems l ++ [']']) = ('[' :: renderElems l) ++ [']'] from rfl,
      getLast?_concat_eq] at h
    injection h with h3
    subst h3
    decide
  | obj f =>
    simp only [renderJson] at h
    rw [show '{' :: (renderFields f ++ ['}']) = ('{' :: renderFields f) ++ ['}'] from rfl,
      getLast?_concat_eq] at h
    injection h with h3
    subst h3
    decide

theorem goodEdge_unpack {c : Char} (h : goodEdgeChar c = true) :
    isWsChar c = false ∧ c ≠ btick := by
  simp [goodEdgeChar, Bool.and_eq_true, Bool.not_eq_true'] at h
  exact ⟨h.1, h.2⟩

/-! No-op lemmas: cleanup does not touch a list whose edge characters are
neither whitespace nor backticks. -/

theorem dropWhile_ws_nop {l : List Char} {c : Char}
    (hh : l.head? = some c) (hc : isWsChar c = false) :
    l.dropWhile isWsChar = l := by
  cases l with
  | nil => rfl
  | cons a t =>
    injection hh with h2
    subst h2
    simp [List.dropWhile_cons, hc]

theorem trimEnd_nop {l : List Char} {c : Char}
    (hl : l.getLast? = some c) (hc : isWsChar c = false) :
    trimEndL l = l := by
  unfold trimEndL
  rw [dropWhile_ws_nop (by rw [List.head?_reverse]; exact hl) hc, List.reverse_reverse]

theorem jsTrim_nop {l : List Char} {c d : Char}
    (hh : l.head? = some c) (hc : isWsChar c = false)
    (hl : l.getLast? = some d) (hd : isWsChar d = false) :
    jsTrimL l = l := by
  unfold jsTrimL
  rw [dropWhile_ws_nop hh hc, trimEnd_nop hl hd]

theorem take3_ne {l : List Char} {c : Char}
    (hh : l.head? = some c) (hc : c ≠ btick) :
    l.take 3 ≠ [btick, btick, btick] := by
  cases l with
  | nil => simp
  | cons a t =>
    injection hh with h2
    subst h2
    intro h
    rw [List.take_succ_cons] at h
    injection h with h3 _
    exact hc h3

theorem stripLeadJson_nop {l : List Char} {c : Char}
    (hh : l.head? = some c) (hc : c ≠ btick) :
    stripLeadJson l = l := by
  unfold stripLeadJson
  rw [if_neg]
  intro h
  exact take3_ne hh hc h.2.1

theorem stripLeadPlain_nop {l : List Char} {c : Char}
    (hh : l.head? = some c) (hc : c ≠ btick) :
    stripLeadPlain l = l := by
  unfold stripLeadPlain
  rw [if_neg (take3_ne hh hc)]

theorem stripTrailFence_nop {l : List Char} {c : Char}
    (hl : l.getLast? = some c) (hc : c ≠ btick) :
    stripTrailFence l = l := by
  unfold stripTrailFence
  rw [if_neg (take3_ne (by rw [List.head?_reverse]; exact hl) hc)]

/-- Cleanup is the identity on a bare serialized payload. -/
theorem cleanupResponse_render (j : Json) : cleanupResponse (renderJson j) = renderJson j := by
  obtain ⟨a, t, hR⟩ : ∃ a t, renderJson j = a :: t := by
    cases hR : renderJson j with
    | nil => exact absurd hR (renderJson_ne_nil j)
    | cons a t => exact ⟨a, t, rfl⟩
  have hhead : (renderJson j).head? = some a := by rw [hR]; rfl
  obtain ⟨d, hlast⟩ : ∃ d, (renderJson j).getLast? = some d := by
    rw [hR]
    exact Option.isSome_iff_exists.mp (by simp)
  have hga := goodEdge_unpack (renderJson_head_good hhead)
  have hgd := goodEdge_unpack (renderJson_last_good hlast)
  unfold cleanupResponse
  rw [jsTrim_nop hhead hga.1 hlast hgd.1, stripLeadJson_nop hhead hga.2,
    stripLeadPlain_nop hhead hga.2, stripTrailFence_nop hlast hgd.2,
    jsTrim_nop hhead hga.1 hlast hgd.1]


/-- A leading LF is consumed by whitespace stripping. -/
theorem dropWhile_ws_newline (X : List Char) :
    ('\n' :: X).dropWhile isWsChar = X.dropWhile isWsChar := rfl

/-- Cleanup strips a surrounding fence (untagged, or tagged `json` in any
letter case) from a serialized payload, leaving exactly the payload. -/
theorem cleanupResponse_fenced (j : Json) (tl : List Char)
    (htl : tl = [] ∨ jsToLowerL tl = "json".data) :
    cleanupResponse ([btick, btick, btick] ++ tl ++
      '\n' :: (renderJson j ++ '\n' :: [btick, btick, btick])) = renderJson j := by
  obtain ⟨a, t, hR⟩ : ∃ a t, renderJson j = a :: t := by
    cases hR : renderJson j with
    | nil => exact absurd hR (renderJson_ne_nil j)
    | cons a t => exact ⟨a, t, rfl⟩
  have hhead : (renderJson j).head? = some a := by rw [hR]; rfl
  obtain ⟨d, hlast⟩ : ∃ d, (renderJson j).getLast? = some d := by
    rw [hR]
    exact Option.isSome_iff_exists.mp (by simp)
  have hga := goodEdge_unpack (renderJson_head_good hhead)
  have hgd := goodEdge_unpack (renderJson_last_good hlast)
  set R := renderJson j with hRdef
  have hdropR : (R ++ '\n' :: [btick, btick, btick]).dropWhile isWsChar
      = R ++ '\n' :: [btick, btick, btick] := by
    refine dropWhile_ws_nop ?_ hga.1
    rw [hR]
    rfl
  have hLlast : ([btick, btick, btick] ++ tl ++
      '\n' :: (R ++ '\n' :: [btick, btick, btick])).getLast? = some btick := by
    rw [show [btick, btick, btick] ++ tl ++ '\n' :: (R ++ '\n' :: [btick, btick, btick])
        = ([btick, btick, btick] ++ tl ++ '\n' :: R ++ ['\n', btick, btick]) ++ [btick] by
      simp]
    exact getLast?_concat_eq _ _
  have htrim : jsTrimL ([btick, btick, btick] ++ tl ++
      '\n' :: (R ++ '\n' :: [btick, btick, btick]))
      = [btick, btick, btick] ++ tl ++ '\n' :: (R ++ '\n' :: [btick, btick, btick]) :=
    jsTrim_nop rfl (by decide) hLlast (by decide)
  have hlead : stripLeadPlain (stripLeadJson ([btick, btick, btick] ++ tl ++
      '\n' :: (R ++ '\n' :: [btick, btick, btick])))
      = R ++ '\n' :: [btick, btick, btick] := by
    rcases htl with rfl | hjson
    · -- untagged fence: the tagged strip does not fire, the plain strip does
      have hj : stripLeadJson ([btick, btick, btick] ++ [] ++
          '\n' :: (R ++ '\n' :: [btick, btick, btick]))
          = [btick, btick, btick] ++ [] ++ '\n' :: (R ++ '\n' :: [btick, btick, btick]) := by
        unfold stripLeadJson
        split
        · rename_i hcond
          exfalso
          have h5 : some (toLowerChar '\n') = some 'j' := congrArg List.head? hcond.2.2
          exact absurd h5 (by decide)
        · rfl
      rw [hj]
      show (R ++ '\n' :: [btick, btick, btick]).dropWhile isWsChar
          = R ++ '\n' :: [btick, btick, btick]
      exact hdropR
    · -- fence tagged `json` in some letter case: the tagged strip fires
      have hlen4 : tl.length = 4 := by
        have h6 := congrArg List.length hjson
        simpa [jsToLowerL] using h6
      have hj : stripLeadJson ([btick, btick, btick] ++ tl ++
          '\n' :: (R ++ '\n' :: [btick, btick, btick]))
          = R ++ '\n' :: [btick, btick, btick] := by
        unfold stripLeadJson
        split
        · show (List.drop 4 (tl ++ '\n' :: (R ++ '\n' :: [btick, btick, btick]))).dropWhile
              isWsChar = R ++ '\n' :: [btick, btick, btick]
          rw [show List.drop 4 (tl ++ '\n' :: (R ++ '\n' :: [btick, btick, btick]))
              = '\n' :: (R ++ '\n' :: [btick, btick, btick]) by
            rw [← hlen4]
            exact List.drop_left _ _]
          rw [dropWhile_ws_newline]
          exact hdropR
        · rename_i hcond
          exfalso
          apply hcond
          refine ⟨?_, rfl, ?_⟩
          · simp only [List.length_append, List.length_cons, hlen4]
            omega
          · show jsToLowerL (List.take 4 (tl ++ '\n' :: (R ++ '\n' :: [btick, btick, btick])))
                = "json".data
            rw [show List.take 4 (tl ++ '\n' :: (R ++ '\n' :: [btick, btick, btick])) = tl by
              rw [← hlen4]
              exact List.take_left _ _]
            exact hjson
      rw [hj]
      refine stripLeadPlain_nop ?_ hga.2
      rw [hR]
      rfl
  have htrail : stripTrailFence (R ++ '\n' :: [btick, btick, btick]) = R := by
    have hrev : (R ++ '\n' :: [btick, btick, btick]).reverse
        = btick :: btick :: btick :: '\n' :: R.reverse := by simp
    unfold stripTrailFence
    rw [hrev]
    split
    · show (('\n' :: R.reverse).dropWhile isWsChar).reverse = R
      rw [dropWhile_ws_newline]
      rw [dropWhile_ws_nop (by rw [List.head?_reverse]; exact hlast) hgd.1, List.reverse_reverse]
    · rename_i hcond
      exact absurd rfl hcond
  have htrimR : jsTrimL R = R := jsTrim_nop hhead hga.1 hlast hgd.1
  unfold cleanupResponse
  rw [htrim, hlead, htrail, htrimR]

/-- C6 counterexample: the claim extends fence stripping to "any language
tag", but the code only strips an untagged fence or one tagged `json`.
With tag `js`, the fenced response fails to parse (`MalformedDiscoveryResponse`)
while the bare payload parses to an empty catalog. -/
theorem discoverActions_fence_tag_counterexample :
    discoverActions "```js\n\x7b\"actions\":[]\x7d\n```"
        = Except.error DiscoverError.malformedResponse ∧
      discoverActions "\x7b\"actions\":[]\x7d" = Except.ok [] ∧
      discoverActions "```js\n\x7b\"actions\":[]\x7d\n```"
        ≠ discoverActions "\x7b\"actions\":[]\x7d" := by
  refine ⟨rfl, rfl, ?_⟩
  intro h
  have h1 : discoverActions "```js\n\x7b\"actions\":[]\x7d\n```"
      = Except.error DiscoverError.malformedResponse := rfl
  have h2 : discoverActions "\x7b\"actions\":[]\x7d" = Except.ok [] := rfl
  rw [h1, h2] at h
  exact Except.noConfusion h

/-- C6 (amended): the discoverer's cleanup makes a fenced response parse
identically to the bare payload when the fence is untagged or tagged
`json` in any letter case; other language tags are not stripped. -/
theorem discoverActions_fence_insensitive (j : Json) (t : String)
    (ht : t = "" ∨ jsToLowerL t.data = "json".data) :
    discoverActions ("```" ++ t ++ "\n" ++ renderStr j ++ "\n```")
      = discoverActions (renderStr j) := by
  have htl : t.data = [] ∨ jsToLowerL t.data = "json".data := by
    rcases ht with rfl | h
    · exact Or.inl rfl
    · exact Or.inr h
  have hdata : ("```" ++ t ++ "\n" ++ renderStr j ++ "\n```").data
      = [btick, btick, btick] ++ t.data ++
        '\n' :: (renderJson j ++ '\n' :: [btick, btick, btick]) := by
    have h1 : "```".data = [btick, btick, btick] := rfl
    have h2 : "\n".data = ['\n'] := rfl
    have h3 : "\n```".data = '\n' :: [btick, btick, btick] := rfl
    have h4 : (renderStr j).data = renderJson j := rfl
    simp only [String.data_append, h1, h2, h3, h4, List.append_assoc, List.cons_append,
      List.singleton_append, List.nil_append]
    rfl
  have hfl : cleanupResponse (("```" ++ t ++ "\n" ++ renderStr j ++ "\n```").data)
      = renderJson j := by
    rw [hdata]
    exact cleanupResponse_fenced j t.data htl
  have hbr : cleanupResponse ((renderStr j).data) = renderJson j :=
    cleanupResponse_render j
  unfold discoverActions
  rw [hfl, hbr]

/-- Concrete instance for C6 (amended): an upper-case `JSON` tag. -/
theorem discoverActions_fence_insensitive_witness :
    discoverActions ("```" ++ "JSON" ++ "\n" ++ renderStr (Json.obj []) ++ "\n```")
      = discoverActions (renderStr (Json.obj [])) :=
  discoverActions_fence_insensitive (Json.obj []) "JSON" (Or.inr rfl)

/-! ### Authentication data model (`AuthAnalysisSchema`) -/

inductive AuthStrategy where
  | autofill : AuthStrategy
  | manual : AuthStrategy
  | passwordless : AuthStrategy
  | unknown : AuthStrategy
deriving DecidableEq

structure MfaInfo where
  required : Bool
  description : Option String
deriving DecidableEq

/-- The analyzer's classification, as validated by `AuthAnalysisSchema`. -/
structure AuthAnalysis where
  requiresAuth : Bool
  loginButton : Option String := none
  summary : Option String := none
  canAutofill : Option Bool := none
  recommendedStrategy : Option AuthStrategy := none
  steps : Option (List String) := none
  blockers : Option (List String) := none
  mfa : Option MfaInfo := none
deriving DecidableEq

structure Credentials where
  username : String
  password : String
deriving DecidableEq

/-! ### Authentication orchestrator (`authenticateToWebsite`)

The orchestrator performs external calls whose outcomes the code cannot
control: analyzer results, a 1Password credential lookup, `stagehand.act`
clicks (which may throw), autofill actions (which may throw), and one
line of operator input.  `AuthEnv` fixes all of these, making the
orchestrator a pure function that returns a result and the ordered trace
of external actions.  `analysisAt n` is the result of the (n+1)-st
analyzer call of the run.  Navigation and the debugger-URL opening are
modelled as infallible (the code does not guard them; their failures
would be distinct upstream exceptions outside every claim considered
here). -/

structure AuthEnv where
  activePageOk : Bool
  analysisAt : Nat → AuthAnalysis
  credentials : Option Credentials
  clickThrows : Bool
  autofillThrows : Bool
  userInput : String

inductive AuthEvent where
  | navigate (url : String) : AuthEvent
  | analyze (idx : Nat) : AuthEvent
  | credentialLookup : AuthEvent
  | clickAttempt (button : String) : AuthEvent
  | autofillAttempt : AuthEvent
  | openDebugger : AuthEvent
  | awaitInput : AuthEvent
deriving DecidableEq

inductive AuthOutcome where
  | noAuthRequired : AuthOutcome
  | autoLoginSuccess : AuthOutcome
  | skipped : AuthOutcome
  | verifiedManual : AuthOutcome
deriving DecidableEq

inductive AuthError where
  | noActivePage : AuthError
  | authenticationIncomplete : AuthError
deriving DecidableEq

/-- `userInput.toLowerCase().trim() === "skip"`. -/
def isSkipInput (s : String) : Bool :=
  decide (jsTrimL (jsToLowerL s.data) = "skip".data)

/-- The manual fallback step: open the debugger session for the operator,
block on one line of input; `skip` re-navigates to the original URL and
returns, anything else triggers one final analysis which decides between
success and `AuthenticationIncomplete`. -/
def manualStep (env : AuthEnv) (url : String) (tr : List AuthEvent) (i : Nat) :
    Except AuthError AuthOutcome × List AuthEvent :=
  let tr2 := tr ++ [.openDebugger, .awaitInput]
  if isSkipInput env.userInput then (.ok .skipped, tr2 ++ [.navigate url])
  else
    let tr3 := tr2 ++ [.analyze i]
    if (env.analysisAt i).requiresAuth then (.error .authenticationIncomplete, tr3)
    else (.ok .verifiedManual, tr3)

/-- The authentication orchestrator. -/
def authenticateToWebsite (env : AuthEnv) (url : String) :
    Except AuthError AuthOutcome × List AuthEvent :=
  if env.activePageOk = false then (.error .noActivePage, [])
  else
    let a0 := env.analysisAt 0
    if a0.requiresAuth = false then (.ok .noAuthRequired, [.navigate url, .analyze 0])
    else
      let afterClick : AuthAnalysis × List AuthEvent × Nat :=
        match a0.loginButton with
        | some btn =>
          if env.clickThrows then
            (a0, [.navigate url, .analyze 0, .credentialLookup, .clickAttempt btn], 1)
          else
            (env.analysisAt 1,
              [.navigate url, .analyze 0, .credentialLookup, .clickAttempt btn, .analyze 1], 2)
        | none => (a0, [.navigate url, .analyze 0, .credentialLookup], 1)
      let a1 := afterClick.1
      let tr := afterClick.2.1
      let i := afterClick.2.2
      if env.credentials.isSome ∧ a1.canAutofill = some true then
        if env.autofillThrows then manualStep env url (tr ++ [.autofillAttempt]) i
        else
          if (env.analysisAt i).requiresAuth = false then
            (.ok .autoLoginSuccess, tr ++ [.autofillAttempt, .analyze i])
          else manualStep env url (tr ++ [.autofillAttempt, .analyze i]) (i + 1)
      else manualStep env url tr i

def isClickEvent : AuthEvent → Bool
  | .clickAttempt _ => true
  | _ => false

def isAnalyzeEvent : AuthEvent → Bool
  | .analyze _ => true
  | _ => false

/-- On `skip` input, the manual step succeeds as skipped and its last
action is re-navigation to the original URL. -/
theorem manualStep_skip (env : AuthEnv) (url : String) (tr : List AuthEvent) (i : Nat)
    (hskip : isSkipInput env.userInput = true) :
    manualStep env url tr i
      = (.ok .skipped, (tr ++ [.openDebugger, .awaitInput]) ++ [.navigate url]) := by
  unfold manualStep
  simp [hskip]

/-- On non-`skip` input, the manual step runs exactly one more analysis
and decides from it. -/
theorem manualStep_noskip (env : AuthEnv) (url : String) (tr : List AuthEvent) (i : Nat)
    (hskip : isSkipInput env.userInput = false) :
    manualStep env url tr i
      = if (env.analysisAt i).requiresAuth then
          (.error .authenticationIncomplete, (tr ++ [.openDebugger, .awaitInput]) ++ [.analyze i])
        else (.ok .verifiedManual, (tr ++ [.openDebugger, .awaitInput]) ++ [.analyze i]) := by
  unfold manualStep
  simp [hskip]

/-- Every orchestrator run either returns early with a trace that never
awaited operator input, or ends in the manual fallback step. -/
theorem authenticateToWebsite_cases (env : AuthEnv) (url : String) :
    (∃ res tr, authenticateToWebsite env url = (res, tr) ∧ AuthEvent.awaitInput ∉ tr) ∨
    (∃ tr i, authenticateToWebsite env url = manualStep env url tr i ∧
      AuthEvent.awaitInput ∉ tr) := by
  unfold authenticateToWebsite
  by_cases hp : env.activePageOk = false
  · exact Or.inl ⟨_, _, by rw [if_pos hp], by simp⟩
  · rw [if_neg hp]
    by_cases h0 : (env.analysisAt 0).requiresAuth = false
    · exact Or.inl ⟨_, _, by rw [if_pos h0], by simp⟩
    · rw [if_neg h0]
      cases hbtn : (env.analysisAt 0).loginButton with
      | none =>
        simp only [hbtn]
        by_cases hcred : env.credentials.isSome ∧ (env.analysisAt 0).canAutofill = some true
        · rw [if_pos hcred]
          by_cases haf : env.autofillThrows
          · rw [if_pos haf]
            exact Or.inr ⟨_, _, rfl, by simp⟩
          · rw [if_neg haf]
            by_cases hra : (env.analysisAt 1).requiresAuth = false
            · rw [if_pos hra]
              exact Or.inl ⟨_, _, rfl, by simp⟩
            · rw [if_neg hra]
              exact Or.inr ⟨_, _, rfl, by simp⟩
        · rw [if_neg hcred]
          exact Or.inr ⟨_, _, rfl, by simp⟩
      | some btn =>
        simp only [hbtn]
        by_cases hc : env.clickThrows
        · rw [if_pos hc]
          by_cases hcred : env.credentials.isSome ∧ (env.analysisAt 0).canAutofill = some true
          · rw [if_pos hcred]
            by_cases haf : env.autofillThrows
            · rw [if_pos haf]
              exact Or.inr ⟨_, _, rfl, by simp⟩
            · rw [if_neg haf]
              by_cases hra : (env.analysisAt 1).requiresAuth = false
              · rw [if_pos hra]
                exact Or.inl ⟨_, _, rfl, by simp⟩
              · rw [if_neg hra]
                exact Or.inr ⟨_, _, rfl, by simp⟩
          · rw [if_neg hcred]
            exact Or.inr ⟨_, _, rfl, by simp⟩
        · rw [if_neg hc]
          by_cases hcred : env.credentials.isSome ∧ (env.analysisAt 1).canAutofill = some true
          · rw [if_pos hcred]
            by_cases haf : env.autofillThrows
            · rw [if_pos haf]
              exact Or.inr ⟨_, _, rfl, by simp⟩
            · rw [if_neg haf]
              by_cases hra : (env.analysisAt 2).requiresAuth = false
              · rw [if_pos hra]
                exact Or.inl ⟨_, _, rfl, by simp⟩
              · rw [if_neg hra]
                exact Or.inr ⟨_, _, rfl, by simp⟩
          · rw [if_neg hcred]
            exact Or.inr ⟨_, _, rfl, by simp⟩

/-- C5: if the very first analysis reports no authentication required,
the orchestrator returns `noAuthRequired` immediately: the trace contains
no credential lookup and no operator-input wait. -/
theorem auth_short_circuit (env : AuthEnv) (url : String)
    (hpage : env.activePageOk = true)
    (hfirst : (env.analysisAt 0).requiresAuth = false) :
    (authenticateToWebsite env url).1 = Except.ok AuthOutcome.noAuthRequired ∧
    AuthEvent.credentialLookup ∉ (authenticateToWebsite env url).2 ∧
    AuthEvent.awaitInput ∉ (authenticateToWebsite env url).2 := by
  have h : authenticateToWebsite env url
      = (.ok .noAuthRequired, [.navigate url, .analyze 0]) := by
    unfold authenticateToWebsite
    rw [if_neg (by rw [hpage]; simp), if_pos hfirst]
  rw [h]
  exact ⟨rfl, by simp, by simp⟩

/-- An environment whose first analysis requires no login. -/
def envNoAuth : AuthEnv :=
  ⟨true, fun _ => { requiresAuth := false }, none, false, false, ""⟩

/-- Concrete instance for C5. -/
theorem auth_short_circuit_witness :
    (authenticateToWebsite envNoAuth "https://example.com").1
        = Except.ok AuthOutcome.noAuthRequired ∧
      AuthEvent.credentialLookup ∉ (authenticateToWebsite envNoAuth "https://example.com").2 ∧
      AuthEvent.awaitInput ∉ (authenticateToWebsite envNoAuth "https://example.com").2 :=
  auth_short_circuit envNoAuth "https://example.com" rfl rfl

/-- C2: whenever the run reaches the manual-fallback wait and the
operator input is `skip` up to letter case and surrounding whitespace,
the orchestrator returns normally (`skipped`, never
`AuthenticationIncomplete`) and its final action re-navigates to the
original URL. -/
theorem auth_skip_semantics (env : AuthEnv) (url : String)
    (hmanual : AuthEvent.awaitInput ∈ (authenticateToWebsite env url).2)
    (hskip : isSkipInput env.userInput = true) :
    (authenticateToWebsite env url).1 = Except.ok AuthOutcome.skipped ∧
    (authenticateToWebsite env url).2.getLast? = some (AuthEvent.navigate url) := by
  rcases authenticateToWebsite_cases env url with ⟨res, tr, heq, hni⟩ | ⟨tr, i, heq, hni⟩
  · rw [heq] at hmanual
    exact absurd hmanual hni
  · rw [heq, manualStep_skip env url tr i hskip]
    exact ⟨rfl, getLast?_concat_eq _ _⟩

/-- An environment that reaches manual fallback (auth required, no
button, no credentials) with operator input `"  SKIP  "`. -/
def envSkip : AuthEnv :=
  ⟨true, fun _ => { requiresAuth := true }, none, false, false, "  SKIP  "⟩

/-- Concrete instance for C2. -/
theorem auth_skip_semantics_witness :
    (authenticateToWebsite envSkip "https://example.com").1
        = Except.ok AuthOutcome.skipped ∧
      (authenticateToWebsite envSkip "https://example.com").2.getLast?
        = some (AuthEvent.navigate "https://example.com") :=
  auth_skip_semantics envSkip "https://example.com" (by decide) (by decide)

/-- C3: after the manual step with any non-`skip` operator input, the
orchestrator runs exactly one final analysis as its last action; if that
analysis reports `requiresAuth = false` it returns `verifiedManual`, and
if it reports `requiresAuth = true` it fails with
`AuthenticationIncomplete` — nothing follows the final analysis, so there
is no further automatic retry. -/
theorem auth_manual_final (env : AuthEnv) (url : String)
    (hmanual : AuthEvent.awaitInput ∈ (authenticateToWebsite env url).2)
    (hnoskip : isSkipInput env.userInput = false) :
    ∃ i pre, (authenticateToWebsite env url).2
        = pre ++ [AuthEvent.awaitInput, AuthEvent.analyze i] ∧
      ((env.analysisAt i).requiresAuth = false →
        (authenticateToWebsite env url).1 = Except.ok AuthOutcome.verifiedManual) ∧
      ((env.analysisAt i).requiresAuth = true →
        (authenticateToWebsite env url).1
          = Except.error AuthError.authenticationIncomplete) := by
  rcases authenticateToWebsite_cases env url with ⟨res, tr, heq, hni⟩ | ⟨tr, i, heq, hni⟩
  · rw [heq] at hmanual
    exact absurd hmanual hni
  · refine ⟨i, tr ++ [AuthEvent.openDebugger], ?_, ?_, ?_⟩
    · rw [heq, manualStep_noskip env url tr i hnoskip]
      cases hra : (env.analysisAt i).requiresAuth
      · simp
      · simp
    · intro hra
      rw [heq, manualStep_noskip env url tr i hnoskip, if_neg (by rw [hra]; simp)]
    · intro hra
      rw [heq, manualStep_noskip env url tr i hnoskip, if_pos hra]

/-- An environment that reaches manual fallback with non-`skip` input. -/
def envManual : AuthEnv :=
  ⟨true, fun _ => { requiresAuth := true }, none, false, false, "done"⟩

/-- Concrete instance for C3. -/
theorem auth_manual_final_witness :
    ∃ i pre, (authenticateToWebsite envManual "https://example.com").2
        = pre ++ [AuthEvent.awaitInput, AuthEvent.analyze i] ∧
      ((envManual.analysisAt i).requiresAuth = false →
        (authenticateToWebsite envManual "https://example.com").1
          = Except.ok AuthOutcome.verifiedManual) ∧
      ((envManual.analysisAt i).requiresAuth = true →
        (authenticateToWebsite envManual "https://example.com").1
          = Except.error AuthError.authenticationIncomplete) :=
  auth_manual_final envManual "https://example.com" (by decide) (by decide)

/-- The manual step only appends events after the given trace, never a
click, and always awaits operator input. -/
theorem manualStep_trace (env : AuthEnv) (url : String) (tr : List AuthEvent) (i : Nat) :
    ∃ rest, (manualStep env url tr i).2 = tr ++ rest ∧
      AuthEvent.awaitInput ∈ rest ∧ rest.countP isClickEvent = 0 := by
  unfold manualStep
  by_cases h : isSkipInput env.userInput = true
  · rw [if_pos h]
    exact ⟨[.openDebugger, .awaitInput, .navigate url], by simp, by simp,
      by simp [isClickEvent]⟩
  · rw [if_neg h]
    by_cases hra : (env.analysisAt i).requiresAuth = true
    · rw [if_pos hra]
      exact ⟨[.openDebugger, .awaitInput, .analyze i], by simp, by simp,
        by simp [isClickEvent]⟩
    · rw [if_neg hra]
      exact ⟨[.openDebugger, .awaitInput, .analyze i], by simp, by simp,
        by simp [isClickEvent]⟩

/-- C8 (amended): when the analysis reports a login button the
orchestrator attempts the click exactly once; a failing click is
non-fatal (the run still proceeds to the autofill or manual fallback
paths); and the analyzer is re-run immediately after the click attempt
when the click succeeds (on a thrown click the re-analysis inside the
`try` is skipped). -/
theorem auth_click_behavior (env : AuthEnv) (url : String) (btn : String)
    (hpage : env.activePageOk = true)
    (h0 : (env.analysisAt 0).requiresAuth = true)
    (hbtn : (env.analysisAt 0).loginButton = some btn) :
    (authenticateToWebsite env url).2.countP isClickEvent = 1 ∧
    (env.clickThrows = true →
      AuthEvent.autofillAttempt ∈ (authenticateToWebsite env url).2 ∨
      AuthEvent.awaitInput ∈ (authenticateToWebsite env url).2) ∧
    (env.clickThrows = false →
      ∃ suf, (authenticateToWebsite env url).2
        = [AuthEvent.navigate url, AuthEvent.analyze 0, AuthEvent.credentialLookup,
            AuthEvent.clickAttempt btn, AuthEvent.analyze 1] ++ suf) := by
  unfold authenticateToWebsite
  rw [if_neg (by rw [hpage]; simp), if_neg (by rw [h0]; simp)]
  simp only [hbtn]
  by_cases hc : env.clickThrows
  · rw [if_pos hc]
    by_cases hcred : env.credentials.isSome ∧ (env.analysisAt 0).canAutofill = some true
    · rw [if_pos hcred]
      by_cases haf : env.autofillThrows
      · rw [if_pos haf]
        obtain ⟨rest, htr, hmem, hcount⟩ := manualStep_trace env url
          ([.navigate url, .analyze 0, .credentialLookup, .clickAttempt btn]
            ++ [.autofillAttempt]) 1
        rw [htr]
        refine ⟨?_, fun _ => Or.inl ?_, fun h => by simp [h] at hc⟩
        · simp [List.countP_append, hcount, isClickEvent]
        · simp
      · rw [if_neg haf]
        by_cases hra : (env.analysisAt 1).requiresAuth = false
        · rw [if_pos hra]
          refine ⟨?_, fun _ => Or.inl ?_, fun h => by simp [h] at hc⟩
          · simp [List.countP_append, isClickEvent]
          · simp
        · rw [if_neg hra]
          obtain ⟨rest, htr, hmem, hcount⟩ := manualStep_trace env url
            ([.navigate url, .analyze 0, .credentialLookup, .clickAttempt btn]
              ++ [.autofillAttempt, .analyze 1]) 2
          rw [htr]
          refine ⟨?_, fun _ => Or.inl ?_, fun h => by simp [h] at hc⟩
          · simp [List.countP_append, hcount, isClickEvent]
          · simp
    · rw [if_neg hcred]
      obtain ⟨rest, htr, hmem, hcount⟩ := manualStep_trace env url
        [.navigate url, .analyze 0, .credentialLookup, .clickAttempt btn] 1
      rw [htr]
      refine ⟨?_, fun _ => Or.inr (List.mem_append_right _ hmem), fun h => by simp [h] at hc⟩
      simp [List.countP_append, hcount, isClickEvent]
  · rw [if_neg hc]
    have hcfalse : env.clickThrows = false := by
      cases hcv : env.clickThrows
      · rfl
      · exact absurd hcv hc
    by_cases hcred : env.credentials.isSome ∧ (env.analysisAt 1).canAutofill = some true
    · rw [if_pos hcred]
      by_cases haf : env.autofillThrows
      · rw [if_pos haf]
        obtain ⟨rest, htr, hmem, hcount⟩ := manualStep_trace env url
          ([.navigate url, .analyze 0, .credentialLookup, .clickAttempt btn, .analyze 1]
            ++ [.autofillAttempt]) 2
        rw [htr]
        refine ⟨?_, fun h => absurd h hc, fun _ => ⟨[AuthEvent.autofillAttempt] ++ rest, by simp⟩⟩
        simp [List.countP_append, hcount, isClickEvent]
      · rw [if_neg haf]
        by_cases hra : (env.analysisAt 2).requiresAuth = false
        · rw [if_pos hra]
          refine ⟨?_, fun h => absurd h hc,
            fun _ => ⟨[AuthEvent.autofillAttempt, AuthEvent.analyze 2], by simp⟩⟩
          simp [List.countP_append, isClickEvent]
        · rw [if_neg hra]
          obtain ⟨rest, htr, hmem, hcount⟩ := manualStep_trace env url
            ([.navigate url, .analyze 0, .credentialLookup, .clickAttempt btn, .analyze 1]
              ++ [.autofillAttempt, .analyze 2]) 3
          rw [htr]
          refine ⟨?_, fun h => absurd h hc,
            fun _ => ⟨[AuthEvent.autofillAttempt, AuthEvent.analyze 2] ++ rest, by simp⟩⟩
          simp [List.countP_append, hcount, isClickEvent]
    · rw [if_neg hcred]
      obtain ⟨rest, htr, hmem, hcount⟩ := manualStep_trace env url
        [.navigate url, .analyze 0, .credentialLookup, .clickAttempt btn, .analyze 1] 2
      rw [htr]
      refine ⟨?_, fun h => absurd h hc, fun _ => ⟨rest, by simp⟩⟩
      simp [List.countP_append, hcount, isClickEvent]

/-- The events strictly after the first click attempt of a trace. -/
def afterFirstClick (tr : List AuthEvent) : List AuthEvent :=
  (tr.dropWhile (fun e => !isClickEvent e)).tail

/-- An environment where the analysis reports a login button and the
click attempt throws. -/
def envClickFail : AuthEnv :=
  ⟨true,
    fun _ => { requiresAuth := true, loginButton := some "Click the Sign In button" },
    none, true, false, "skip"⟩

/-- C8 counterexample: the claim says the analyzer is re-run after the
click attempt, but when the click throws the re-analysis inside the `try`
is skipped: here the click is attempted exactly once, the run continues
to the manual fallback, yet no analyzer run follows the click. -/
theorem auth_click_reanalysis_counterexample :
    (authenticateToWebsite envClickFail "https://example.com").2.countP isClickEvent = 1 ∧
    AuthEvent.awaitInput ∈ (authenticateToWebsite envClickFail "https://example.com").2 ∧
    (afterFirstClick (authenticateToWebsite envClickFail "https://example.com").2).all
      (fun e => !isAnalyzeEvent e) = true := by
  decide

/-- Concrete instance for C8 (amended). -/
theorem auth_click_behavior_witness :
    (authenticateToWebsite envClickFail "https://example.com").2.countP isClickEvent = 1 ∧
    (envClickFail.clickThrows = true →
      AuthEvent.autofillAttempt ∈ (authenticateToWebsite envClickFail "https://example.com").2 ∨
      AuthEvent.awaitInput ∈ (authenticateToWebsite envClickFail "https://example.com").2) ∧
    (envClickFail.clickThrows = false →
      ∃ suf, (authenticateToWebsite envClickFail "https://example.com").2
        = [AuthEvent.navigate "https://example.com", AuthEvent.analyze 0,
            AuthEvent.credentialLookup, AuthEvent.clickAttempt "Click the Sign In button",
            AuthEvent.analyze 1] ++ suf) :=
  auth_click_behavior envClickFail "https://example.com" "Click the Sign In button" rfl rfl rfl

/-! ### Authentication analyzer (`analyzeAuthenticationState`)

The structured-extraction call (`stagehand.extract` validated against
`AuthAnalysisSchema`) is external; `ExtractOutcome` fixes its result:
a validated analysis, a thrown `Error` with a message, or a thrown
non-`Error` value. -/

inductive ExtractOutcome where
  | ok (a : AuthAnalysis) : ExtractOutcome
  | errMessage (msg : String) : ExtractOutcome
  | errOther : ExtractOutcome

def extractFailed : ExtractOutcome → Bool
  | .ok _ => false
  | _ => true

/-- The alternatives of the fallback regex `/login|signin|auth|sign-in|account/i`. -/
def authKeywords : List String := ["login", "signin", "auth", "sign-in", "account"]

/-- `/login|signin|auth|sign-in|account/i.test(url)`. -/
def urlAuthHeuristic (url : String) : Bool :=
  authKeywords.any (fun kw => containsSub kw.data (jsToLowerL url.data))

/-- `analyzeAuthenticationState`: returns the extraction result, or on
any extraction/validation failure a heuristic analysis derived from the
page URL, never throwing. -/
def analyzeAuthenticationState (extractResult : ExtractOutcome) (pageUrl : String) :
    AuthAnalysis :=
  match extractResult with
  | .ok a => a
  | .errMessage msg =>
    { requiresAuth := urlAuthHeuristic pageUrl,
      summary := some ("Heuristic result after extract error: " ++ msg) }
  | .errOther =>
    { requiresAuth := urlAuthHeuristic pageUrl,
      summary := some "Heuristic result after extract error." }

/-- The claim's pattern condition, stated independently of the code: some
regex alternative occurs as a substring of the lowercased URL. -/
def MatchesAuthPattern (url : String) : Prop :=
  ∃ kw ∈ authKeywords, kw.data <:+: jsToLowerL url.data

/-- `containsSub` decides the substring relation. -/
theorem containsSub_iff (pat l : List Char) : containsSub pat l = true ↔ pat <:+: l := by
  induction l with
  | nil => simp [containsSub]
  | cons c rest ih =>
    simp [containsSub, ih, List.infix_cons_iff]

/-- C4: on every extraction failure the analyzer returns (never throws) a
best-effort analysis whose `requiresAuth` is true exactly when the page
URL matches `login|signin|auth|sign-in|account` case-insensitively, with
a summary noting the fallback. -/
theorem analyzeAuthenticationState_fallback (er : ExtractOutcome) (url : String)
    (hfail : extractFailed er = true) :
    ((analyzeAuthenticationState er url).requiresAuth = true ↔ MatchesAuthPattern url) ∧
    ∃ rest, (analyzeAuthenticationState er url).summary
      = some ("Heuristic result after extract error" ++ rest) := by
  have hiff : urlAuthHeuristic url = true ↔ MatchesAuthPattern url := by
    simp [urlAuthHeuristic, MatchesAuthPattern, List.any_eq_true, containsSub_iff]
  cases er with
  | ok a => simp [extractFailed] at hfail
  | errMessage msg =>
    refine ⟨hiff, ": " ++ msg, ?_⟩
    show some ("Heuristic result after extract error: " ++ msg)
      = some ("Heuristic result after extract error" ++ (": " ++ msg))
    rw [show "Heuristic result after extract error: "
        = "Heuristic result after extract error" ++ ": " from rfl, String.append_assoc]
  | errOther =>
    exact ⟨hiff, ".", rfl⟩

/-- Concrete instance for C4: extraction fails on a login page URL. -/
theorem analyzeAuthenticationState_fallback_witness :
    ((analyzeAuthenticationState ExtractOutcome.errOther
        "https://example.com/login").requiresAuth = true
      ↔ MatchesAuthPattern "https://example.com/login") ∧
    ∃ rest, (analyzeAuthenticationState ExtractOutcome.errOther
        "https://example.com/login").summary
      = some ("Heuristic result after extract error" ++ rest) :=
  analyzeAuthenticationState_fallback ExtractOutcome.errOther "https://example.com/login" rfl

/-! ### Model-provider configuration (`getModel`)

`getModel` reads `MODEL_PROVIDER` from the environment and dispatches on
its prefix; the SDK client construction is external, so the embedding
returns which provider was selected and the model name obtained by
`MODEL_PROVIDER.replace(prefix, "")` (removal of the first occurrence). -/

inductive Provider where
  | openai : Provider
  | anthropic : Provider
  | google : Provider
  | xai : Provider
deriving DecidableEq

structure ModelChoice where
  provider : Provider
  modelName : String
deriving DecidableEq

/-- `String.prototype.startsWith(pat)` (exact code-unit prefix test). -/
def startsWithL (s pat : String) : Bool := pat.data.isPrefixOf s.data

/-- `String.prototype.replace(pat, "")` for a plain-string pattern:
remove the first occurrence of `pat`, if any. -/
def removeFirstOcc (pat : List Char) : List Char → List Char
  | [] => []
  | c :: rest =>
    if pat.isPrefixOf (c :: rest) then (c :: rest).drop pat.length
    else c :: removeFirstOcc pat rest

/-- `getModel`, from the resolved `MODEL_PROVIDER` value onward. -/
def getModel (MODEL_PROVIDER : String) : Except String ModelChoice :=
  if startsWithL MODEL_PROVIDER "openai/" then
    .ok ⟨.openai, ⟨removeFirstOcc "openai/".data MODEL_PROVIDER.data⟩⟩
  else if startsWithL MODEL_PROVIDER "anthropic/" then
    .ok ⟨.anthropic, ⟨removeFirstOcc "anthropic/".data MODEL_PROVIDER.data⟩⟩
  else if startsWithL MODEL_PROVIDER "google/" then
    .ok ⟨.google, ⟨removeFirstOcc "google/".data MODEL_PROVIDER.data⟩⟩
  else if startsWithL MODEL_PROVIDER "xai/" then
    .ok ⟨.xai, ⟨removeFirstOcc "xai/".data MODEL_PROVIDER.data⟩⟩
  else
    .error ("Unsupported model provider: " ++ MODEL_PROVIDER
      ++ ". Must start with openai/, anthropic/, google/, or xai/")

/-- C9: configuration succeeds exactly for provider strings starting with
`openai/`, `anthropic/`, `google/` or `xai/`; any other provider fails
fast with the `UnsupportedModelProvider` diagnostic, before any browser
or session work (the embedding performs none). -/
theorem getModel_provider_check (p : String) :
    ((∃ m, getModel p = Except.ok m) ↔
      (startsWithL p "openai/" ∨ startsWithL p "anthropic/" ∨
        startsWithL p "google/" ∨ startsWithL p "xai/")) ∧
    (¬(startsWithL p "openai/" ∨ startsWithL p "anthropic/" ∨
        startsWithL p "google/" ∨ startsWithL p "xai/") →
      getModel p = Except.error ("Unsupported model provider: " ++ p
        ++ ". Must start with openai/, anthropic/, google/, or xai/")) := by
  constructor
  · constructor
    · intro ⟨m, hm⟩
      by_contra hnone
      push_neg at hnone
      obtain ⟨h1, h2, h3, h4⟩ := hnone
      unfold getModel at hm
      rw [if_neg (by simp [h1]), if_neg (by simp [h2]), if_neg (by simp [h3]),
        if_neg (by simp [h4])] at hm
      exact Except.noConfusion hm
    · intro h
      unfold getModel
      by_cases h1 : startsWithL p "openai/" = true
      · rw [if_pos h1]
        exact ⟨_, rfl⟩
      · rw [if_neg h1]
        by_cases h2 : startsWithL p "anthropic/" = true
        · rw [if_pos h2]
          exact ⟨_, rfl⟩
        · rw [if_neg h2]
          by_cases h3 : startsWithL p "google/" = true
          · rw [if_pos h3]
            exact ⟨_, rfl⟩
          · rw [if_neg h3]
            by_cases h4 : startsWithL p "xai/" = true
            · rw [if_pos h4]
              exact ⟨_, rfl⟩
            · rcases h with h | h | h | h
              · exact absurd h h1
              · exact absurd h h2
              · exact absurd h h3
              · exact absurd h h4
  · intro h
    push_neg at h
    obtain ⟨h1, h2, h3, h4⟩ := h
    unfold getModel
    rw [if_neg (by simp [h1]), if_neg (by simp [h2]), if_neg (by simp [h3]),
      if_neg (by simp [h4])]

/-- Concrete instance for C9: an unrecognized provider is rejected with
the diagnostic. -/
theorem getModel_provider_check_witness :
    getModel "mistral/large" = Except.error ("Unsupported model provider: " ++ "mistral/large"
      ++ ". Must start with openai/, anthropic/, google/, or xai/") :=
  (getModel_provider_check "mistral/large").2 (by decide)

/-! ### URL normalizer (`normalizeUrl`)

`new URL(...)` is embedded as `jsURL`, a parser for the WHATWG http/https
grammar fragment the normalizer exercises: every string the code passes
to `new URL` carries a literal lowercase `http://` or `https://` prefix
(checked or freshly prepended).  The embedding covers ASCII hosts
(lowercased), ports (numeric, canonicalized, default ports elided),
path dot-segment removal, query and fragment, and WHATWG's removal of
tab/newline characters; userinfo, IP literals, IDNA hosts and characters
that would require percent-encoding are outside the fragment and make
the embedded parser fail where the platform would encode them. -/

inductive Scheme where
  | http : Scheme
  | https : Scheme
deriving DecidableEq

/-- A parsed URL record (the components `new URL` exposes). The port is
kept as its canonical digit string. -/
structure URLRec where
  scheme : Scheme
  host : List Char
  port : Option (List Char)
  path : List (List Char)
  query : Option (List Char)
  fragment : Option (List Char)
deriving DecidableEq

/-- Characters the embedding accepts in a host, post-lowercasing. -/
def isHostChar (c : Char) : Bool :=
  decide (('a' ≤ c ∧ c ≤ 'z') ∨ ('0' ≤ c ∧ c ≤ '9') ∨ c = '.' ∨ c = '-' ∨ c = '_')

/-- A raw host character: valid after lowercasing. -/
def isHostRawChar (c : Char) : Bool := isHostChar (toLowerChar c)

/-- Characters that stay inside the authority component. -/
def authChar (c : Char) : Bool := !(c = '/' || c = '\\' || c = '?' || c = '#')

def notColon (c : Char) : Bool := !(c = ':')

def notQF (c : Char) : Bool := !(c = '?' || c = '#')

def notHash (c : Char) : Bool := !(c = '#')

/-- WHATWG removes tab, LF and CR from the input before parsing. -/
def keepChar (c : Char) : Bool := !(c = '\t' || c = '\n' || c = '\r')

/-- Path separators ('/' and '\\' alike for special schemes). -/
def sepChar (c : Char) : Bool := c = '/' || c = '\\'

/-- Path characters accepted literally (no whitespace — the platform
would percent-encode it — and no delimiters). -/
def isPathChar (c : Char) : Bool := !(isWsChar c) && authChar c

def isQueryChar (c : Char) : Bool := !(isWsChar c) && notHash c

def isFragChar (c : Char) : Bool := !(isWsChar c)

/-- Canonical port digits: strip leading zeros (`0080` → `80`). -/
def canonPort (ds : List Char) : List Char :=
  let t := ds.dropWhile (fun c => c = '0')
  if t = [] then ['0'] else t

def defaultPort (sch : Scheme) (ds : List Char) : Bool :=
  match sch with
  | .http => ds = "80".data
  | .https => ds = "443".data

/-- Port parsing: empty ports are dropped, digits are canonicalized,
values ≥ 2^16 fail, default ports are elided. -/
def parsePort (sch : Scheme) (portRaw : List Char) : Option (Option (List Char)) :=
  match portRaw with
  | [] => some none
  | c0 :: ds =>
    if c0 = ':' then
      if ds = [] then some none
      else if ds.all isDigitChar then
        if digitsToNat (canonPort ds) < 65536 then
          if defaultPort sch (canonPort ds) then some none else some (some (canonPort ds))
        else none
      else none
    else none

/-- Split a path body into segments at '/' and '\\'. -/
def splitSeps : List Char → List (List Char)
  | [] => [[]]
  | c :: rest =>
    if sepChar c then [] :: splitSeps rest
    else
      match splitSeps rest with
      | s :: ss => (c :: s) :: ss
      | [] => [[c]]

/-- Segments of the raw path text (which, when nonempty, starts with a
separator). -/
def pathSegsOfRaw (raw : List Char) : List (List Char) :=
  match raw with
  | [] => [[]]
  | _ :: rest => splitSeps rest

/-- One step of WHATWG dot-segment removal. -/
def remDotsStep (acc : List (List Char)) (seg : List Char) : List (List Char) :=
  if seg = ['.', '.'] then acc.dropLast
  else if seg = ['.'] then acc
  else acc ++ [seg]

/-- WHATWG dot-segment removal over a segment list. -/
def removeDotSegs (segs : List (List Char)) : List (List Char) :=
  let acc := segs.foldl remDotsStep []
  let acc2 := if segs.getLast? = some ['.'] ∨ segs.getLast? = some ['.', '.'] then
    acc ++ [[]] else acc
  if acc2 = [] then [[]] else acc2

/-- Recognize and strip the scheme prefix (the code only ever passes
strings with a literal lowercase prefix). -/
def dropSchemePrefix (l : List Char) : Option (Scheme × List Char) :=
  if "https://".data.isPrefixOf l then some (.https, l.drop 8)
  else if "http://".data.isPrefixOf l then some (.http, l.drop 7)
  else none

/-- Fragment validation, the last parsing stage. -/
def parseFrag (sch : Scheme) (host : List Char) (port : Option (List Char))
    (segs : List (List Char)) (query : Option (List Char)) (frest : List Char) :
    Option URLRec :=
  if !(frest.all isFragChar) then none
  else some ⟨sch, host, port, segs, query, some frest⟩

/-- Query parsing, after a `?`. -/
def parseQ (sch : Scheme) (host : List Char) (port : Option (List Char))
    (segs : List (List Char)) (qrest : List Char) : Option URLRec :=
  let q := qrest.takeWhile notHash
  let rest4 := qrest.dropWhile notHash
  if !(q.all isQueryChar) then none
  else
    match rest4 with
    | [] => some ⟨sch, host, port, segs, some q, none⟩
    | '#' :: frest => parseFrag sch host port segs (some q) frest
    | _ => none

/-- Dispatch on what follows the path. -/
def parseQF (sch : Scheme) (host : List Char) (port : Option (List Char))
    (segs : List (List Char)) (rest3 : List Char) : Option URLRec :=
  match rest3 with
  | [] => some ⟨sch, host, port, segs, none, none⟩
  | '?' :: qrest => parseQ sch host port segs qrest
  | '#' :: frest => parseFrag sch host port segs none frest
  | _ => none

/-- Path, query and fragment parsing, after the authority. -/
def parsePQF (sch : Scheme) (host : List Char) (port : Option (List Char))
    (rest2 : List Char) : Option URLRec :=
  let pathRaw := rest2.takeWhile notQF
  if !(pathRaw.all (fun c => sepChar c || isPathChar c)) then none
  else
    parseQF sch host port (removeDotSegs (pathSegsOfRaw pathRaw)) (rest2.dropWhile notQF)

/-- Authority (host and port) parsing, after the scheme. -/
def parseAuthority (sch : Scheme) (rest : List Char) : Option URLRec :=
  let auth := rest.takeWhile authChar
  let rest2 := rest.dropWhile authChar
  let hostRaw := auth.takeWhile notColon
  let portRaw := auth.dropWhile notColon
  if hostRaw = [] then none
  else if !(hostRaw.all isHostRawChar) then none
  else
    match parsePort sch portRaw with
    | none => none
    | some port => parsePQF sch (jsToLowerL hostRaw) port rest2

/-- The `new URL` embedding. -/
def jsURL (l0 : List Char) : Option URLRec :=
  match dropSchemePrefix (l0.filter keepChar) with
  | none => none
  | some (sch, rest) => parseAuthority sch rest

def schemeChars : Scheme → List Char
  | .http => "http".data
  | .https => "https".data

/-- Join path segments with '/' (without the leading slash). -/
def joinSegs : List (List Char) → List Char
  | [] => []
  | [s] => s
  | s :: s2 :: rest => s ++ '/' :: joinSegs (s2 :: rest)

def portChars : Option (List Char) → List Char
  | none => []
  | some ds => ':' :: ds

def queryChars : Option (List Char) → List Char
  | none => []
  | some q => '?' :: q

def fragChars : Option (List Char) → List Char
  | none => []
  | some f => '#' :: f

/-- The URL serializer (`URL.prototype.toString` / `href`). -/
def serializeURL (r : URLRec) : List Char :=
  schemeChars r.scheme ++ "://".data ++ r.host ++ portChars r.port
    ++ ('/' :: joinSegs r.path) ++ queryChars r.query ++ fragChars r.fragment

def urlToString (r : URLRec) : String := ⟨serializeURL r⟩

/-- `normalizeUrl`: trim; with an explicit lowercase `http://`/`https://`
prefix validate as-is, otherwise prepend `https://` and validate; failure
raises `Invalid URL format` (with a hint in the prefix-free branch). -/
def normalizeUrl (input : String) : Except String URLRec :=
  let url := jsTrimL input.data
  if "http://".data.isPrefixOf url ∨ "https://".data.isPrefixOf url then
    match jsURL url with
    | some u => .ok u
    | none => .error "Invalid URL format"
  else
    match jsURL ("https://".data ++ url) with
    | some u => .ok u
    | none => .error "Invalid URL format. Please provide a valid URL (e.g., https://example.com, www.example.com, or example.com)"

/-- `isValidUrlInput`: the companion predicate reporting validity without
raising. -/
def isValidUrlInput (input : String) : Bool :=
  match normalizeUrl input with
  | .ok _ => true
  | .error _ => false

/-! ### Character-class facts -/

theorem bool_pred_ne {p : Char → Bool} {c x : Char} (h : p c = true) (hx : p x = false) :
    c ≠ x := by
  intro he
  rw [he, hx] at h
  cases h

theorem ws_cases {c : Char} (hw : isWsChar c = true) :
    c = ' ' ∨ c = Char.ofNat 9 ∨ c = Char.ofNat 10 ∨ c = Char.ofNat 13
      ∨ c = Char.ofNat 11 ∨ c = Char.ofNat 12 := by
  simpa [isWsChar, or_assoc] using hw

theorem hostChar_not_ws {c : Char} (h : isHostChar c = true) : isWsChar c = false := by
  cases hw : isWsChar c
  · rfl
  · rcases ws_cases hw with h6 | h6 | h6 | h6 | h6 | h6
    all_goals (subst h6; exact absurd h (by decide))

theorem digitChar_not_ws {c : Char} (h : isDigitChar c = true) : isWsChar c = false := by
  cases hw : isWsChar c
  · rfl
  · rcases ws_cases hw with h6 | h6 | h6 | h6 | h6 | h6
    all_goals (subst h6; exact absurd h (by decide))

theorem keep_of_not_ws {c : Char} (h : isWsChar c = false) : keepChar c = true := by
  by_cases h1 : c = '\t'
  · subst h1
    exact absurd h (by decide)
  · by_cases h2 : c = '\n'
    · subst h2
      exact absurd h (by decide)
    · by_cases h3 : c = '\r'
      · subst h3
        exact absurd h (by decide)
      · simp [keepChar, h1, h2, h3]

theorem authChar_of_ne {c : Char} (h1 : c ≠ '/') (h2 : c ≠ '\\') (h3 : c ≠ '?')
    (h4 : c ≠ '#') : authChar c = true := by
  simp [authChar, h1, h2, h3, h4]

theorem hostChar_auth {c : Char} (h : isHostChar c = true) : authChar c = true :=
  authChar_of_ne (bool_pred_ne h (by decide)) (bool_pred_ne h (by decide))
    (bool_pred_ne h (by decide)) (bool_pred_ne h (by decide))

theorem hostChar_notColon {c : Char} (h : isHostChar c = true) : notColon c = true := by
  simp [notColon, bool_pred_ne h (show isHostChar ':' = false by decide)]

theorem digitChar_auth {c : Char} (h : isDigitChar c = true) : authChar c = true :=
  authChar_of_ne (bool_pred_ne h (by decide)) (bool_pred_ne h (by decide))
    (bool_pred_ne h (by decide)) (bool_pred_ne h (by decide))

theorem hostChar_lower {c : Char} (h : isHostChar c = true) : toLowerChar c = c := by
  unfold toLowerChar
  rw [if_neg]
  rintro ⟨h1, h2⟩
  rw [isHostChar, decide_eq_true_eq] at h
  rcases h with ⟨ha, -⟩ | ⟨-, hb⟩ | rfl | rfl | rfl
  · exact absurd (le_trans ha h2) (by decide)
  · exact absurd (le_trans h1 hb) (by decide)
  · exact absurd h1 (by decide)
  · exact absurd h1 (by decide)
  · exact absurd h2 (by decide)

theorem pathChar_parts {c : Char} (h : isPathChar c = true) :
    isWsChar c = false ∧ authChar c = true := by
  have h2 := h
  rw [isPathChar, Bool.and_eq_true, Bool.not_eq_true'] at h2
  exact h2

theorem authChar_split {c : Char} (h : authChar c = true) :
    decide (c = '/') = false ∧ decide (c = '\\') = false ∧
    decide (c = '?') = false ∧ decide (c = '#') = false := by
  rw [authChar, Bool.not_eq_true'] at h
  simp only [Bool.or_eq_false_iff] at h
  exact ⟨h.1.1.1, h.1.1.2, h.1.2, h.2⟩

theorem pathChar_notQF {c : Char} (h : isPathChar c = true) : notQF c = true := by
  obtain ⟨-, -, hq, hh⟩ := authChar_split (pathChar_parts h).2
  simp [notQF, hq, hh]

theorem pathChar_not_sep {c : Char} (h : isPathChar c = true) : sepChar c = false := by
  obtain ⟨hs, hb, -, -⟩ := authChar_split (pathChar_parts h).2
  simp [sepChar, hs, hb]

theorem queryChar_parts {c : Char} (h : isQueryChar c = true) :
    isWsChar c = false ∧ notHash c = true := by
  have h2 := h
  rw [isQueryChar, Bool.and_eq_true, Bool.not_eq_true'] at h2
  exact h2

theorem fragChar_not_ws {c : Char} (h : isFragChar c = true) : isWsChar c = false := by
  have h2 := h
  rw [isFragChar, Bool.not_eq_true'] at h2
  exact h2

/-! ### Span helper lemmas -/

theorem takeWhile_append_all {α : Type} {p : α → Bool} {xs : List α} (ys : List α)
    (h : ∀ x ∈ xs, p x = true) :
    (xs ++ ys).takeWhile p = xs ++ ys.takeWhile p := by
  induction xs with
  | nil => rfl
  | cons a t ih =>
    rw [List.cons_append, List.takeWhile_cons, h a (List.mem_cons_self _ _)]
    simp [ih fun x hx => h x (List.mem_cons_of_mem _ hx)]

theorem dropWhile_append_all {α : Type} {p : α → Bool} {xs : List α} (ys : List α)
    (h : ∀ x ∈ xs, p x = true) :
    (xs ++ ys).dropWhile p = ys.dropWhile p := by
  induction xs with
  | nil => rfl
  | cons a t ih =>
    rw [List.cons_append, List.dropWhile_cons, h a (List.mem_cons_self _ _)]
    simp [ih fun x hx => h x (List.mem_cons_of_mem _ hx)]

theorem takeWhile_cons_false {α : Type} {p : α → Bool} {a : α} (l : List α)
    (h : p a = false) : (a :: l).takeWhile p = [] := by
  rw [List.takeWhile_cons, h]
  rfl

theorem dropWhile_cons_false {α : Type} {p : α → Bool} {a : α} (l : List α)
    (h : p a = false) : (a :: l).dropWhile p = a :: l := by
  rw [List.dropWhile_cons, h]
  rfl

theorem takeWhile_all_eq {α : Type} {p : α → Bool} {xs : List α}
    (h : ∀ x ∈ xs, p x = true) : xs.takeWhile p = xs := by
  have h2 := takeWhile_append_all (p := p) [] h
  simpa using h2

theorem dropWhile_all_eq {α : Type} {p : α → Bool} {xs : List α}
    (h : ∀ x ∈ xs, p x = true) : xs.dropWhile p = [] := by
  have h2 := dropWhile_append_all (p := p) [] h
  simpa using h2

/-! ### Path segment lemmas -/

theorem splitSeps_ne_nil (l : List Char) : splitSeps l ≠ [] := by
  cases l with
  | nil => simp [splitSeps]
  | cons c rest =>
    unfold splitSeps
    split
    · simp
    · split <;> simp

theorem splitSeps_no_sep_id {s : List Char} (h : ∀ c ∈ s, sepChar c = false) :
    splitSeps s = [s] := by
  induction s with
  | nil => rfl
  | cons c t ih =>
    conv_lhs => rw [splitSeps]
    rw [if_neg (by rw [h c (List.mem_cons_self _ _)]; simp),
      ih fun x hx => h x (List.mem_cons_of_mem _ hx)]

theorem splitSeps_append_sep {s : List Char} (y : List Char)
    (h : ∀ c ∈ s, sepChar c = false) :
    splitSeps (s ++ '/' :: y) = s :: splitSeps y := by
  induction s with
  | nil =>
    show splitSeps ('/' :: y) = [] :: splitSeps y
    conv_lhs => rw [splitSeps]
    rw [if_pos (show sepChar '/' = true from rfl)]
  | cons c t ih =>
    have hrec := ih fun x hx => h x (List.mem_cons_of_mem _ hx)
    show splitSeps (c :: (t ++ '/' :: y)) = (c :: t) :: splitSeps y
    conv_lhs => rw [splitSeps]
    rw [if_neg (by rw [h c (List.mem_cons_self _ _)]; simp), hrec]

theorem splitSeps_chars {l : List Char}
    (h : ∀ c ∈ l, (sepChar c || isPathChar c) = true) :
    ∀ s ∈ splitSeps l, ∀ c ∈ s, isPathChar c = true := by
  induction l with
  | nil =>
    intro s hs c hc
    simp [splitSeps] at hs
    subst hs
    cases hc
  | cons a t ih =>
    intro s hs c hc
    unfold splitSeps at hs
    by_cases hsep : sepChar a = true
    · rw [if_pos hsep] at hs
      rcases List.mem_cons.mp hs with rfl | hs2
      · cases hc
      · exact ih (fun x hx => h x (List.mem_cons_of_mem _ hx)) s hs2 c hc
    · rw [if_neg hsep] at hs
      have hpa : isPathChar a = true := by
        have h2 := h a (List.mem_cons_self _ _)
        rcases (by simpa using h2 : sepChar a = true ∨ isPathChar a = true) with h3 | h3
        · exact absurd h3 hsep
        · exact h3
      cases hsp : splitSeps t with
      | nil => exact absurd hsp (splitSeps_ne_nil t)
      | cons s0 ss =>
        rw [hsp] at hs
        simp only [] at hs
        rcases List.mem_cons.mp hs with rfl | hs2
        · rcases List.mem_cons.mp hc with rfl | hc2
          · exact hpa
          · exact ih (fun x hx => h x (List.mem_cons_of_mem _ hx)) s0
              (by rw [hsp]; exact List.mem_cons_self _ _) c hc2
        · exact ih (fun x hx => h x (List.mem_cons_of_mem _ hx)) s
            (by rw [hsp]; exact List.mem_cons_of_mem _ hs2) c hc

theorem foldl_remDots_mem {segs : List (List Char)} :
    ∀ acc s, s ∈ segs.foldl remDotsStep acc →
      s ∈ acc ∨ (s ∈ segs ∧ s ≠ ['.'] ∧ s ≠ ['.', '.']) := by
  induction segs with
  | nil =>
    intro acc s hs
    exact Or.inl hs
  | cons x xs ih =>
    intro acc s hs
    rw [List.foldl_cons] at hs
    rcases ih (remDotsStep acc x) s hs with hin | ⟨hmem, hd⟩
    · unfold remDotsStep at hin
      by_cases h1 : x = ['.', '.']
      · rw [if_pos h1] at hin
        exact Or.inl (List.dropLast_subset _ hin)
      · rw [if_neg h1] at hin
        by_cases h2 : x = ['.']
        · rw [if_pos h2] at hin
          exact Or.inl hin
        · rw [if_neg h2] at hin
          rcases List.mem_append.mp hin with hin2 | hin2
          · exact Or.inl hin2
          · simp at hin2
            subst hin2
            exact Or.inr ⟨List.mem_cons_self _ _, h2, h1⟩
    · exact Or.inr ⟨List.mem_cons_of_mem _ hmem, hd⟩

theorem removeDotSegs_mem {segs : List (List Char)} {s : List Char}
    (hs : s ∈ removeDotSegs segs) :
    (s ∈ segs ∧ s ≠ ['.'] ∧ s ≠ ['.', '.']) ∨ s = [] := by
  unfold removeDotSegs at hs
  by_cases hlast : segs.getLast? = some ['.'] ∨ segs.getLast? = some ['.', '.']
  · simp only [if_pos hlast] at hs
    by_cases hnil : segs.foldl remDotsStep [] ++ [[]] = []
    · simp only [if_pos hnil] at hs
      simp at hs
      exact Or.inr hs
    · simp only [if_neg hnil] at hs
      rcases List.mem_append.mp hs with h2 | h2
      · rcases foldl_remDots_mem [] s h2 with h3 | h3
        · cases h3
        · exact Or.inl h3
      · simp at h2
        exact Or.inr h2
  · simp only [if_neg hlast] at hs
    by_cases hnil : segs.foldl remDotsStep [] = []
    · simp only [if_pos hnil] at hs
      simp at hs
      exact Or.inr hs
    · simp only [if_neg hnil] at hs
      rcases foldl_remDots_mem [] s hs with h3 | h3
      · cases h3
      · exact Or.inl h3

theorem ite_nil_ne {x : List (List Char)} : (if x = [] then [[]] else x) ≠ [] := by
  split
  · simp
  · next h => exact h

theorem removeDotSegs_ne_nil (segs : List (List Char)) : removeDotSegs segs ≠ [] := by
  unfold removeDotSegs
  exact ite_nil_ne

theorem foldl_remDots_nodots {segs : List (List Char)}
    (h : ∀ s ∈ segs, s ≠ ['.'] ∧ s ≠ ['.', '.']) :
    ∀ acc, segs.foldl remDotsStep acc = acc ++ segs := by
  induction segs with
  | nil =>
    intro acc
    simp
  | cons x xs ih =>
    intro acc
    rw [List.foldl_cons]
    have hx := h x (List.mem_cons_self _ _)
    rw [show remDotsStep acc x = acc ++ [x] by
      unfold remDotsStep
      rw [if_neg hx.2, if_neg hx.1]]
    rw [ih (fun s hs => h s (List.mem_cons_of_mem _ hs)) (acc ++ [x])]
    simp

theorem removeDotSegs_id {segs : List (List Char)} (hne : segs ≠ [])
    (h : ∀ s ∈ segs, s ≠ ['.'] ∧ s ≠ ['.', '.']) :
    removeDotSegs segs = segs := by
  simp only [removeDotSegs]
  have hfold : segs.foldl remDotsStep [] = segs := by
    rw [foldl_remDots_nodots h []]
    simp
  rw [hfold]
  have hlast : ¬(segs.getLast? = some ['.'] ∨ segs.getLast? = some ['.', '.']) := by
    rintro (h2 | h2)
    · exact (h _ (mem_of_getLast? h2)).1 rfl
    · exact (h _ (mem_of_getLast? h2)).2 rfl
  rw [if_neg hlast, if_neg hne]

/-! ### Well-formed URL records: exactly what the parser produces -/

structure URLWF (r : URLRec) : Prop where
  host_ne : r.host ≠ []
  host_ok : ∀ c ∈ r.host, isHostChar c = true
  port_ok : ∀ ds, r.port = some ds →
    ds.all isDigitChar = true ∧ canonPort ds = ds ∧ digitsToNat ds < 65536 ∧
      defaultPort r.scheme ds = false
  path_ne : r.path ≠ []
  path_ok : ∀ s ∈ r.path, (∀ c ∈ s, isPathChar c = true) ∧ s ≠ ['.'] ∧ s ≠ ['.', '.']
  query_ok : ∀ q, r.query = some q → ∀ c ∈ q, isQueryChar c = true
  frag_ok : ∀ f, r.fragment = some f → ∀ c ∈ f, isFragChar c = true

theorem dropWhile_idem {α : Type} (p : α → Bool) (l : List α) :
    (l.dropWhile p).dropWhile p = l.dropWhile p := by
  induction l
  case nil => rfl
  case cons a t ih =>
    by_cases h : p a = true
    · rw [List.dropWhile_cons, if_pos h]
      exact ih
    · have hf : p a = false := by
        cases hv : p a
        · rfl
        · exact absurd hv h
      rw [dropWhile_cons_false _ hf, dropWhile_cons_false _ hf]

theorem canonPort_idem (ds : List Char) : canonPort (canonPort ds) = canonPort ds := by
  by_cases h : ds.dropWhile (fun c => c = '0') = []
  · have h1 : canonPort ds = ['0'] := by
      unfold canonPort
      rw [if_pos h]
    rw [h1]
    rfl
  · have h1 : canonPort ds = ds.dropWhile (fun c => c = '0') := by
      unfold canonPort
      rw [if_neg h]
    rw [h1]
    unfold canonPort
    rw [dropWhile_idem, if_neg h]

theorem canonPort_digits {ds : List Char} (h : ds.all isDigitChar = true) :
    (canonPort ds).all isDigitChar = true := by
  by_cases hd : ds.dropWhile (fun c => c = '0') = []
  · have h1 : canonPort ds = ['0'] := by
      unfold canonPort
      rw [if_pos hd]
    rw [h1]
    decide
  · have h1 : canonPort ds = ds.dropWhile (fun c => c = '0') := by
      unfold canonPort
      rw [if_neg hd]
    rw [h1, List.all_eq_true]
    rw [List.all_eq_true] at h
    exact fun x hx => h x (List.dropWhile_subset _ hx)

/-- What `parsePort` guarantees about a returned port. -/
theorem parsePort_wf {sch : Scheme} {portRaw : List Char} {port : Option (List Char)}
    (h : parsePort sch portRaw = some port) :
    ∀ ds, port = some ds →
      ds.all isDigitChar = true ∧ canonPort ds = ds ∧ digitsToNat ds < 65536 ∧
        defaultPort sch ds = false := by
  rintro ds rfl
  cases portRaw with
  | nil =>
    simp only [parsePort] at h
    cases h
  | cons c0 rest =>
    simp only [parsePort] at h
    by_cases hc : c0 = ':'
    · rw [if_pos hc] at h
      by_cases h1 : rest = []
      · rw [if_pos h1] at h
        cases h
      · rw [if_neg h1] at h
        by_cases h2 : rest.all isDigitChar = true
        · rw [if_pos h2] at h
          by_cases h3 : digitsToNat (canonPort rest) < 65536
          · rw [if_pos h3] at h
            by_cases h4 : defaultPort sch (canonPort rest) = true
            · rw [if_pos h4] at h
              cases h
            · rw [if_neg h4] at h
              injection h with h5
              injection h5 with h6
              rw [← h6]
              refine ⟨canonPort_digits h2, canonPort_idem rest, h3, ?_⟩
              cases hv : defaultPort sch (canonPort rest)
              · rfl
              · exact absurd hv h4
          · rw [if_neg h3] at h
            cases h
        · rw [if_neg (by simpa using h2)] at h
          cases h
    · rw [if_neg hc] at h
      cases h

theorem bnot_cond {x : Bool} (h : ¬((!x) = true)) : x = true := by
  cases x
  · exact absurd rfl h
  · rfl

theorem pathSegsOfRaw_chars {raw : List Char}
    (h : raw.all (fun c => sepChar c || isPathChar c) = true) :
    ∀ s ∈ pathSegsOfRaw raw, ∀ c ∈ s, isPathChar c = true := by
  cases raw with
  | nil =>
    intro s hs c hc
    simp [pathSegsOfRaw] at hs
    subst hs
    cases hc
  | cons a t =>
    rw [List.all_eq_true] at h
    exact splitSeps_chars fun c hc => h c (List.mem_cons_of_mem _ hc)

theorem pathSegsOfRaw_ne_nil (raw : List Char) : pathSegsOfRaw raw ≠ [] := by
  cases raw with
  | nil => simp [pathSegsOfRaw]
  | cons a t => exact splitSeps_ne_nil t

/-- The path component produced by the parser is well-formed. -/
theorem segs_wf {raw : List Char}
    (h : raw.all (fun c => sepChar c || isPathChar c) = true) :
    ∀ s ∈ removeDotSegs (pathSegsOfRaw raw),
      (∀ c ∈ s, isPathChar c = true) ∧ s ≠ ['.'] ∧ s ≠ ['.', '.'] := by
  intro s hs
  rcases removeDotSegs_mem hs with ⟨hmem, hd⟩ | rfl
  · exact ⟨pathSegsOfRaw_chars h s hmem, hd⟩
  · exact ⟨fun c hc => absurd hc (List.not_mem_nil c), by simp, by simp⟩

/-- Everything `parseFrag` guarantees. -/
theorem parseFrag_ok {sch : Scheme} {host : List Char} {port : Option (List Char)}
    {segs : List (List Char)} {query : Option (List Char)} {frest : List Char} {r : URLRec}
    (h : parseFrag sch host port segs query frest = some r) :
    r = ⟨sch, host, port, segs, query, some frest⟩ ∧ (∀ c ∈ frest, isFragChar c = true) := by
  simp only [parseFrag] at h
  split at h
  · cases h
  · rename_i hfv
    have hf2 := bnot_cond hfv
    rw [List.all_eq_true] at hf2
    injection h with h2
    exact ⟨h2.symm, hf2⟩

/-- Everything `parseQ` guarantees. -/
theorem parseQ_ok {sch : Scheme} {host : List Char} {port : Option (List Char)}
    {segs : List (List Char)} {qrest : List Char} {r : URLRec}
    (h : parseQ sch host port segs qrest = some r) :
    r.scheme = sch ∧ r.host = host ∧ r.port = port ∧ r.path = segs ∧
    (∀ q, r.query = some q → ∀ c ∈ q, isQueryChar c = true) ∧
    (∀ f, r.fragment = some f → ∀ c ∈ f, isFragChar c = true) := by
  simp only [parseQ] at h
  split at h
  · cases h
  · rename_i hqv
    have hq2 := bnot_cond hqv
    rw [List.all_eq_true] at hq2
    split at h
    · injection h with h2
      subst h2
      refine ⟨rfl, rfl, rfl, rfl, ?_, by rintro f ⟨⟩⟩
      rintro q hq3
      injection hq3 with hq4
      subst hq4
      exact fun c hc => hq2 c hc
    · obtain ⟨h2, hf2⟩ := parseFrag_ok h
      subst h2
      refine ⟨rfl, rfl, rfl, rfl, ?_, ?_⟩
      · rintro q hq3
        injection hq3 with hq4
        subst hq4
        exact fun c hc => hq2 c hc
      · rintro f hf3
        injection hf3 with hf4
        subst hf4
        exact hf2
    · cases h

/-- Everything `parseQF` guarantees. -/
theorem parseQF_ok {sch : Scheme} {host : List Char} {port : Option (List Char)}
    {segs : List (List Char)} {rest3 : List Char} {r : URLRec}
    (h : parseQF sch host port segs rest3 = some r) :
    r.scheme = sch ∧ r.host = host ∧ r.port = port ∧ r.path = segs ∧
    (∀ q, r.query = some q → ∀ c ∈ q, isQueryChar c = true) ∧
    (∀ f, r.fragment = some f → ∀ c ∈ f, isFragChar c = true) := by
  simp only [parseQF] at h
  split at h
  · injection h with h2
    subst h2
    exact ⟨rfl, rfl, rfl, rfl, by rintro q ⟨⟩, by rintro f ⟨⟩⟩
  · exact parseQ_ok h
  · obtain ⟨h2, hf2⟩ := parseFrag_ok h
    subst h2
    refine ⟨rfl, rfl, rfl, rfl, by rintro q ⟨⟩, ?_⟩
    rintro f hf3
    injection hf3 with hf4
    subst hf4
    exact hf2
  · cases h

/-- Everything `parsePQF` guarantees about a successful result. -/
theorem parsePQF_ok {sch : Scheme} {host : List Char} {port : Option (List Char)}
    {rest2 : List Char} {r : URLRec}
    (h : parsePQF sch host port rest2 = some r) :
    r.scheme = sch ∧ r.host = host ∧ r.port = port ∧
    r.path ≠ [] ∧
    (∀ s ∈ r.path, (∀ c ∈ s, isPathChar c = true) ∧ s ≠ ['.'] ∧ s ≠ ['.', '.']) ∧
    (∀ q, r.query = some q → ∀ c ∈ q, isQueryChar c = true) ∧
    (∀ f, r.fragment = some f → ∀ c ∈ f, isFragChar c = true) := by
  simp only [parsePQF] at h
  split at h
  · cases h
  · rename_i hval
    have hval2 := bnot_cond hval
    obtain ⟨h1, h2, h3, h4, h5, h6⟩ := parseQF_ok h
    refine ⟨h1, h2, h3, ?_, ?_, h5, h6⟩
    · rw [h4]
      exact removeDotSegs_ne_nil _
    · rw [h4]
      exact segs_wf hval2

/-- A successful authority parse yields a well-formed record with the
given scheme. -/
theorem parseAuthority_ok {sch : Scheme} {rest : List Char} {r : URLRec}
    (h : parseAuthority sch rest = some r) :
    URLWF r ∧ r.scheme = sch := by
  simp only [parseAuthority] at h
  split at h
  · cases h
  · rename_i hne
    split at h
    · cases h
    · rename_i hraw
      have hraw2 := bnot_cond hraw
      rw [List.all_eq_true] at hraw2
      split at h
      · cases h
      · rename_i port hport
        obtain ⟨hsch, hhost, hp, hpne, hpath, hq, hf⟩ := parsePQF_ok h
        have hwfport := parsePort_wf hport
        refine ⟨⟨?_, ?_, ?_, hpne, hpath, hq, hf⟩, hsch⟩
        · rw [hhost]
          intro hmap
          exact hne (by simpa [jsToLowerL] using hmap)
        · rw [hhost]
          intro c hc
          rw [jsToLowerL] at hc
          obtain ⟨c0, hc0, rfl⟩ := List.mem_map.mp hc
          exact hraw2 c0 hc0
        · intro ds hds
          rw [hp] at hds
          have hpp := hwfport ds hds
          rw [hsch]
          exact hpp

/-- Every record the URL parser returns is well-formed. -/
theorem jsURL_wf {l : List Char} {r : URLRec} (h : jsURL l = some r) : URLWF r := by
  simp only [jsURL] at h
  split at h
  · cases h
  · exact (parseAuthority_ok h).1

/-- The parsed scheme is the one recognized from the prefix. -/
theorem jsURL_scheme {l : List Char} {r : URLRec} {sch : Scheme} {rest : List Char}
    (hd : dropSchemePrefix (l.filter keepChar) = some (sch, rest))
    (h : jsURL l = some r) : r.scheme = sch := by
  simp only [jsURL] at h
  rw [hd] at h
  exact (parseAuthority_ok h).2

/-! ### Round trip: parsing a serialized well-formed record -/

theorem joinSegs_mem {segs : List (List Char)} {c : Char} (h : c ∈ joinSegs segs) :
    c = '/' ∨ ∃ s ∈ segs, c ∈ s := by
  induction segs with
  | nil => cases h
  | cons s rest ih =>
    cases rest with
    | nil => exact Or.inr ⟨s, List.mem_cons_self _ _, h⟩
    | cons s2 rest2 =>
      rw [show joinSegs (s :: s2 :: rest2) = s ++ '/' :: joinSegs (s2 :: rest2) from rfl] at h
      rcases List.mem_append.mp h with h2 | h2
      · exact Or.inr ⟨s, List.mem_cons_self _ _, h2⟩
      · rcases List.mem_cons.mp h2 with rfl | h3
        · exact Or.inl rfl
        · rcases ih h3 with h4 | ⟨s3, hs3, hc3⟩
          · exact Or.inl h4
          · exact Or.inr ⟨s3, List.mem_cons_of_mem _ hs3, hc3⟩

theorem canonPort_ne_nil (ds : List Char) : canonPort ds ≠ [] := by
  by_cases h : ds.dropWhile (fun c => c = '0') = []
  · rw [show canonPort ds = ['0'] by unfold canonPort; rw [if_pos h]]
    simp
  · rw [show canonPort ds = ds.dropWhile (fun c => c = '0') by unfold canonPort; rw [if_neg h]]
    exact h

/-- No serialized well-formed URL contains whitespace. -/
theorem serialize_no_ws {r : URLRec} (hwf : URLWF r) :
    ∀ c ∈ serializeURL r, isWsChar c = false := by
  intro c hc
  unfold serializeURL at hc
  rcases List.mem_append.mp hc with hc | h1
  rotate_left
  · -- fragment part
    cases hfr : r.fragment with
    | none => rw [hfr] at h1; cases h1
    | some f =>
      rw [hfr] at h1
      simp only [fragChars] at h1
      rcases List.mem_cons.mp h1 with rfl | h2
      · decide
      · exact fragChar_not_ws (hwf.frag_ok f hfr c h2)
  rcases List.mem_append.mp hc with hc | h1
  rotate_left
  · -- query part
    cases hqr : r.query with
    | none => rw [hqr] at h1; cases h1
    | some q =>
      rw [hqr] at h1
      simp only [queryChars] at h1
      rcases List.mem_cons.mp h1 with rfl | h2
      · decide
      · exact (queryChar_parts (hwf.query_ok q hqr c h2)).1
  rcases List.mem_append.mp hc with hc | h1
  rotate_left
  · -- path part
    rcases List.mem_cons.mp h1 with rfl | h2
    · decide
    · rcases joinSegs_mem h2 with rfl | ⟨s, hs, hcs⟩
      · decide
      · exact (pathChar_parts ((hwf.path_ok s hs).1 c hcs)).1
  rcases List.mem_append.mp hc with hc | h1
  rotate_left
  · -- port part
    cases hp : r.port with
    | none => rw [hp] at h1; cases h1
    | some ds =>
      rw [hp] at h1
      simp only [portChars] at h1
      rcases List.mem_cons.mp h1 with rfl | h2
      · decide
      · have hd := (hwf.port_ok ds hp).1
        rw [List.all_eq_true] at hd
        exact digitChar_not_ws (hd c h2)
  rcases List.mem_append.mp hc with hc | h1
  rotate_left
  · -- host
    exact hostChar_not_ws (hwf.host_ok c h1)
  rcases List.mem_append.mp hc with h1 | h1
  · -- scheme
    have h3 : ∀ x ∈ schemeChars r.scheme, isWsChar x = false := by
      cases r.scheme <;> decide
    exact h3 c h1
  · -- "://"
    have h3 : ∀ x ∈ "://".data, isWsChar x = false := by decide
    exact h3 c h1

/-- Stripping the scheme off a serialized record. -/
theorem dropSchemePrefix_serialize (sch : Scheme) (X : List Char) :
    dropSchemePrefix (schemeChars sch ++ "://".data ++ X) = some (sch, X) := by
  cases sch
  · show dropSchemePrefix ("http".data ++ "://".data ++ X) = some (.http, X)
    unfold dropSchemePrefix
    rw [if_neg, if_pos]
    · rfl
    · rw [show ("http".data ++ "://".data ++ X) = "http://".data ++ X by simp,
        List.isPrefixOf_iff_prefix]
      exact List.prefix_append _ _
    · intro hcon
      rw [List.isPrefixOf_iff_prefix] at hcon
      obtain ⟨t, ht⟩ := hcon
      rw [show ("http".data ++ "://".data ++ X) = "http://".data ++ X by simp] at ht
      simp at ht
  · show dropSchemePrefix ("https".data ++ "://".data ++ X) = some (.https, X)
    unfold dropSchemePrefix
    rw [if_pos]
    · rfl
    · rw [show ("https".data ++ "://".data ++ X) = "https://".data ++ X by simp,
        List.isPrefixOf_iff_prefix]
      exact List.prefix_append _ _

theorem splitSeps_joinSegs {segs : List (List Char)} (hne : segs ≠ [])
    (h : ∀ s ∈ segs, ∀ c ∈ s, sepChar c = false) :
    splitSeps (joinSegs segs) = segs := by
  induction segs with
  | nil => exact absurd rfl hne
  | cons s rest ih =>
    cases rest with
    | nil =>
      rw [show joinSegs [s] = s from rfl]
      exact splitSeps_no_sep_id (h s (List.mem_cons_self _ _))
    | cons s2 rest2 =>
      rw [show joinSegs (s :: s2 :: rest2) = s ++ '/' :: joinSegs (s2 :: rest2) from rfl]
      rw [splitSeps_append_sep _ (h s (List.mem_cons_self _ _))]
      rw [ih (by simp) fun x hx => h x (List.mem_cons_of_mem _ hx)]

theorem parseFrag_serialize {sch : Scheme} {host : List Char} {port : Option (List Char)}
    {segs : List (List Char)} {query : Option (List Char)} {f : List Char}
    (hf : ∀ c ∈ f, isFragChar c = true) :
    parseFrag sch host port segs query f = some ⟨sch, host, port, segs, query, some f⟩ := by
  have hfall : f.all isFragChar = true := List.all_eq_true.mpr hf
  simp only [parseFrag]
  rw [hfall]
  rfl

theorem parseQ_serialize {sch : Scheme} {host : List Char} {port : Option (List Char)}
    {segs : List (List Char)} {q : List Char} {frag : Option (List Char)}
    (hq : ∀ c ∈ q, isQueryChar c = true)
    (hf : ∀ f0, frag = some f0 → ∀ c ∈ f0, isFragChar c = true) :
    parseQ sch host port segs (q ++ fragChars frag)
      = some ⟨sch, host, port, segs, some q, frag⟩ := by
  have hqNotHash : ∀ c ∈ q, notHash c = true := fun c hc => (queryChar_parts (hq c hc)).2
  have hqall : q.all isQueryChar = true := List.all_eq_true.mpr hq
  cases frag with
  | none =>
    have ht2 : (q ++ fragChars none).takeWhile notHash = q := by
      rw [show fragChars none = [] from rfl, List.append_nil]
      exact takeWhile_all_eq hqNotHash
    have hd2 : (q ++ fragChars none).dropWhile notHash = [] := by
      rw [show fragChars none = [] from rfl, List.append_nil]
      exact dropWhile_all_eq hqNotHash
    simp only [parseQ]
    rw [ht2, hd2, hqall]
    rfl
  | some f =>
    have ht2 : (q ++ fragChars (some f)).takeWhile notHash = q := by
      rw [show fragChars (some f) = '#' :: f from rfl,
        takeWhile_append_all _ hqNotHash, takeWhile_cons_false _ (show notHash '#' = false from rfl),
        List.append_nil]
    have hd2 : (q ++ fragChars (some f)).dropWhile notHash = '#' :: f := by
      rw [show fragChars (some f) = '#' :: f from rfl,
        dropWhile_append_all _ hqNotHash, dropWhile_cons_false _ (show notHash '#' = false from rfl)]
    simp only [parseQ]
    rw [ht2, hd2, hqall]
    show parseFrag sch host port segs (some q) f = some ⟨sch, host, port, segs, some q, some f⟩
    exact parseFrag_serialize (hf f rfl)

theorem parseQF_serialize {sch : Scheme} {host : List Char} {port : Option (List Char)}
    {segs : List (List Char)} {query frag : Option (List Char)}
    (hq : ∀ q0, query = some q0 → ∀ c ∈ q0, isQueryChar c = true)
    (hf : ∀ f0, frag = some f0 → ∀ c ∈ f0, isFragChar c = true) :
    parseQF sch host port segs (queryChars query ++ fragChars frag)
      = some ⟨sch, host, port, segs, query, frag⟩ := by
  cases query with
  | none =>
    cases frag with
    | none => rfl
    | some f =>
      show parseFrag sch host port segs none f = some ⟨sch, host, port, segs, none, some f⟩
      exact parseFrag_serialize (hf f rfl)
  | some q =>
    show parseQ sch host port segs (q ++ fragChars frag)
      = some ⟨sch, host, port, segs, some q, frag⟩
    exact parseQ_serialize (hq q rfl) hf

theorem parsePQF_serialize {sch : Scheme} {host : List Char} {port : Option (List Char)}
    {path : List (List Char)} {query frag : Option (List Char)}
    (hpne : path ≠ [])
    (hpath : ∀ s ∈ path, (∀ c ∈ s, isPathChar c = true) ∧ s ≠ ['.'] ∧ s ≠ ['.', '.'])
    (hq : ∀ q0, query = some q0 → ∀ c ∈ q0, isQueryChar c = true)
    (hf : ∀ f0, frag = some f0 → ∀ c ∈ f0, isFragChar c = true) :
    parsePQF sch host port (('/' :: joinSegs path) ++ queryChars query ++ fragChars frag)
      = some ⟨sch, host, port, path, query, frag⟩ := by
  have hJnotQF : ∀ c ∈ ('/' :: joinSegs path), notQF c = true := by
    intro c hc
    rcases List.mem_cons.mp hc with rfl | hc2
    · decide
    · rcases joinSegs_mem hc2 with rfl | ⟨s, hs, hcs⟩
      · decide
      · exact pathChar_notQF ((hpath s hs).1 c hcs)
  have hQFtake : (queryChars query ++ fragChars frag).takeWhile notQF = [] := by
    cases query with
    | none =>
      cases frag with
      | none => rfl
      | some f => rfl
    | some q => rfl
  have hQFdrop : (queryChars query ++ fragChars frag).dropWhile notQF
      = queryChars query ++ fragChars frag := by
    cases query with
    | none =>
      cases frag with
      | none => rfl
      | some f => rfl
    | some q => rfl
  have htake : ((('/' :: joinSegs path) ++ queryChars query ++ fragChars frag).takeWhile notQF)
      = '/' :: joinSegs path := by
    rw [List.append_assoc, takeWhile_append_all _ hJnotQF, hQFtake, List.append_nil]
  have hdrop : ((('/' :: joinSegs path) ++ queryChars query ++ fragChars frag).dropWhile notQF)
      = queryChars query ++ fragChars frag := by
    rw [List.append_assoc, dropWhile_append_all _ hJnotQF, hQFdrop]
  have hall : (('/' :: joinSegs path).all fun c => sepChar c || isPathChar c) = true := by
    rw [List.all_eq_true]
    intro x hx
    rcases List.mem_cons.mp hx with rfl | hx2
    · decide
    · rcases joinSegs_mem hx2 with rfl | ⟨s, hs, hcs⟩
      · decide
      · rw [(hpath s hs).1 x hcs, Bool.or_true]
  have hsegs : removeDotSegs (pathSegsOfRaw ('/' :: joinSegs path)) = path := by
    rw [show pathSegsOfRaw ('/' :: joinSegs path) = splitSeps (joinSegs path) from rfl]
    rw [splitSeps_joinSegs hpne fun s hs c hc => pathChar_not_sep ((hpath s hs).1 c hc)]
    exact removeDotSegs_id hpne fun s hs => (hpath s hs).2
  simp only [parsePQF]
  rw [htake, hdrop, hall, hsegs]
  show parseQF sch host port path (queryChars query ++ fragChars frag)
    = some ⟨sch, host, port, path, query, frag⟩
  exact parseQF_serialize hq hf

theorem map_id_of_eq {l : List Char} {f : Char → Char} (h : ∀ c ∈ l, f c = c) :
    l.map f = l := by
  induction l
  case nil => rfl
  case cons a t ih =>
    rw [List.map_cons, h a (List.mem_cons_self _ _),
      ih fun c hc => h c (List.mem_cons_of_mem _ hc)]

theorem parseAuthority_serialize {sch : Scheme} {host : List Char}
    {port : Option (List Char)} {path : List (List Char)} {query frag : Option (List Char)}
    (hwf : URLWF ⟨sch, host, port, path, query, frag⟩) :
    parseAuthority sch
      (host ++ portChars port ++ ('/' :: joinSegs path) ++ queryChars query ++ fragChars frag)
      = some ⟨sch, host, port, path, query, frag⟩ := by
  have hhostAuth : ∀ c ∈ host, authChar c = true := fun c hc => hostChar_auth (hwf.host_ok c hc)
  have hhostCol : ∀ c ∈ host, notColon c = true := fun c hc => hostChar_notColon (hwf.host_ok c hc)
  have hauthAll : ∀ c ∈ host ++ portChars port, authChar c = true := by
    intro c hc
    rcases List.mem_append.mp hc with h1 | h1
    · exact hhostAuth c h1
    · cases hp : port with
      | none => rw [hp] at h1; cases h1
      | some ds =>
        rw [hp] at h1
        simp only [portChars] at h1
        rcases List.mem_cons.mp h1 with rfl | h2
        · decide
        · have hd := (hwf.port_ok ds hp).1
          rw [List.all_eq_true] at hd
          exact digitChar_auth (hd c h2)
  have hreassoc : host ++ portChars port ++ ('/' :: joinSegs path) ++ queryChars query
      ++ fragChars frag
      = (host ++ portChars port) ++
        (('/' :: joinSegs path) ++ queryChars query ++ fragChars frag) := by
    simp [List.append_assoc]
  have htail : ('/' :: joinSegs path) ++ queryChars query ++ fragChars frag
      = '/' :: (joinSegs path ++ queryChars query ++ fragChars frag) := by
    simp
  have hauth : (host ++ portChars port ++ ('/' :: joinSegs path) ++ queryChars query
      ++ fragChars frag).takeWhile authChar = host ++ portChars port := by
    rw [hreassoc, takeWhile_append_all _ hauthAll, htail,
      takeWhile_cons_false _ (show authChar '/' = false from rfl), List.append_nil]
  have hrest2 : (host ++ portChars port ++ ('/' :: joinSegs path) ++ queryChars query
      ++ fragChars frag).dropWhile authChar
      = ('/' :: joinSegs path) ++ queryChars query ++ fragChars frag := by
    rw [hreassoc, dropWhile_append_all _ hauthAll, htail,
      dropWhile_cons_false _ (show authChar '/' = false from rfl), ← htail]
  have hhostRaw : (host ++ portChars port).takeWhile notColon = host := by
    cases hp : port with
    | none =>
      rw [show portChars none = [] from rfl, List.append_nil]
      exact takeWhile_all_eq hhostCol
    | some ds =>
      rw [show portChars (some ds) = ':' :: ds from rfl, takeWhile_append_all _ hhostCol,
        takeWhile_cons_false _ (show notColon ':' = false from rfl), List.append_nil]
  have hportRaw : (host ++ portChars port).dropWhile notColon = portChars port := by
    cases hp : port with
    | none =>
      rw [show portChars none = [] from rfl, List.append_nil]
      exact dropWhile_all_eq hhostCol
    | some ds =>
      rw [show portChars (some ds) = ':' :: ds from rfl, dropWhile_append_all _ hhostCol,
        dropWhile_cons_false _ (show notColon ':' = false from rfl)]
  have hlow : jsToLowerL host = host :=
    map_id_of_eq fun c hc => hostChar_lower (hwf.host_ok c hc)
  have hrawAll : host.all isHostRawChar = true := by
    rw [List.all_eq_true]
    intro c hc
    rw [isHostRawChar, hostChar_lower (hwf.host_ok c hc)]
    exact hwf.host_ok c hc
  have hport : parsePort sch (portChars port) = some port := by
    cases hp : port with
    | none => rfl
    | some ds =>
      obtain ⟨hdig, hcanon, hbound, hdef⟩ := hwf.port_ok ds hp
      have hne : ¬(ds = []) := by rw [← hcanon]; exact canonPort_ne_nil ds
      have hdef' : ¬(defaultPort sch ds = true) := by simp [hdef]
      show parsePort sch (':' :: ds) = some (some ds)
      simp only [parsePort]
      rw [if_pos trivial, if_neg hne, if_pos hdig, hcanon, if_pos hbound, if_neg hdef']
  simp only [parseAuthority]
  rw [hauth, hrest2, hhostRaw, hportRaw]
  rw [if_neg hwf.host_ne, if_neg (by rw [hrawAll]; simp), hport, hlow]
  show parsePQF sch host port
      (('/' :: joinSegs path) ++ queryChars query ++ fragChars frag)
    = some ⟨sch, host, port, path, query, frag⟩
  exact parsePQF_serialize hwf.path_ne hwf.path_ok hwf.query_ok hwf.frag_ok

theorem jsURL_serialize {r : URLRec} (hwf : URLWF r) : jsURL (serializeURL r) = some r := by
  obtain ⟨sch, host, port, path, query, frag⟩ := r
  have hfilter : (serializeURL ⟨sch, host, port, path, query, frag⟩).filter keepChar
      = serializeURL ⟨sch, host, port, path, query, frag⟩ :=
    List.filter_eq_self.mpr fun c hc => keep_of_not_ws (serialize_no_ws hwf c hc)
  have hre : serializeURL ⟨sch, host, port, path, query, frag⟩
      = schemeChars sch ++ "://".data ++
        (host ++ portChars port ++ ('/' :: joinSegs path) ++ queryChars query
          ++ fragChars frag) := by
    simp [serializeURL, List.append_assoc]
  simp only [jsURL]
  rw [hfilter, hre, dropSchemePrefix_serialize]
  exact parseAuthority_serialize hwf

theorem dropWhile_none {α : Type} {p : α → Bool} {l : List α}
    (h : ∀ x ∈ l, p x = false) : l.dropWhile p = l := by
  cases l with
  | nil => rfl
  | cons a t => exact dropWhile_cons_false t (h a (List.mem_cons_self _ _))

theorem jsTrimL_nop {l : List Char} (h : ∀ c ∈ l, isWsChar c = false) :
    jsTrimL l = l := by
  have h2 : ∀ c ∈ l.reverse, isWsChar c = false := fun c hc => h c (List.mem_reverse.mp hc)
  rw [jsTrimL, dropWhile_none h, trimEndL, dropWhile_none h2, List.reverse_reverse]

theorem jsURL_https_prefix_scheme {l : List Char} {r : URLRec}
    (hps : "https://".data <+: l) (h : jsURL l = some r) : r.scheme = Scheme.https := by
  obtain ⟨t, ht⟩ := hps
  subst ht
  have hfil : ("https://".data ++ t).filter keepChar
      = "https://".data ++ t.filter keepChar := by
    rw [List.filter_append, show ("https://".data.filter keepChar) = "https://".data from rfl]
  have hpre : "https://".data.isPrefixOf ("https://".data ++ t.filter keepChar) = true := by
    rw [List.isPrefixOf_iff_prefix]
    exact List.prefix_append _ _
  have hd : dropSchemePrefix (("https://".data ++ t).filter keepChar)
      = some (.https, ("https://".data ++ t.filter keepChar).drop 8) := by
    rw [hfil]
    unfold dropSchemePrefix
    rw [if_pos hpre]
  exact jsURL_scheme hd h

/-- C7: URL normalization is idempotent — for every input on which
`normalizeUrl` succeeds with record `r`, running `normalizeUrl` again on the
string form `urlToString r` of the result succeeds with the same record. -/
theorem normalizeUrl_idempotent (u : String) (r : URLRec)
    (h : normalizeUrl u = .ok r) :
    normalizeUrl (urlToString r) = .ok r := by
  have hwf : URLWF r := by
    simp only [normalizeUrl] at h
    split at h
    · split at h
      · rename_i v heq
        injection h with h1
        subst h1
        exact jsURL_wf heq
      · cases h
    · split at h
      · rename_i v heq
        injection h with h1
        subst h1
        exact jsURL_wf heq
      · cases h
  have htrim : jsTrimL (serializeURL r) = serializeURL r := jsTrimL_nop (serialize_no_ws hwf)
  have hcond : "http://".data.isPrefixOf (serializeURL r) = true
      ∨ "https://".data.isPrefixOf (serializeURL r) = true := by
    cases hs : r.scheme with
    | http =>
      left
      rw [List.isPrefixOf_iff_prefix,
        show serializeURL r = "http://".data ++ (r.host ++ portChars r.port
          ++ ('/' :: joinSegs r.path) ++ queryChars r.query ++ fragChars r.fragment) by
          simp [serializeURL, hs, schemeChars, List.append_assoc]]
      exact List.prefix_append _ _
    | https =>
      right
      rw [List.isPrefixOf_iff_prefix,
        show serializeURL r = "https://".data ++ (r.host ++ portChars r.port
          ++ ('/' :: joinSegs r.path) ++ queryChars r.query ++ fragChars r.fragment) by
          simp [serializeURL, hs, schemeChars, List.append_assoc]]
      exact List.prefix_append _ _
  have hdata : (urlToString r).data = serializeURL r := rfl
  simp only [normalizeUrl, hdata, htrim]
  rw [if_pos hcond, jsURL_serialize hwf]

theorem normalizeUrl_idempotent_witness :
    normalizeUrl (urlToString ⟨Scheme.https, "example.com".data, none, [[]], none, none⟩)
      = .ok ⟨Scheme.https, "example.com".data, none, [[]], none, none⟩ :=
  normalizeUrl_idempotent "example.com"
    ⟨Scheme.https, "example.com".data, none, [[]], none, none⟩ (by rfl)

/-- C10: `normalizeUrl`'s explicit-scheme detection is a case-sensitive
literal prefix check — whenever normalization succeeds on an input whose
trimmed form does not start with the exact lowercase string `http://`, the
returned record's scheme is `https`. -/
theorem normalizeUrl_scheme_default (u : String) (r : URLRec)
    (hnp : "http://".data.isPrefixOf (jsTrimL u.data) = false)
    (h : normalizeUrl u = .ok r) :
    r.scheme = Scheme.https := by
  simp only [normalizeUrl] at h
  split at h
  · rename_i hcond
    have hps : "https://".data.isPrefixOf (jsTrimL u.data) = true := by
      rcases hcond with h1 | h1
      · rw [hnp] at h1
        cases h1
      · exact h1
    split at h
    · rename_i v heq
      injection h with h1
      subst h1
      exact jsURL_https_prefix_scheme (List.isPrefixOf_iff_prefix.mp hps) heq
    · cases h
  · split at h
    · rename_i v heq
      injection h with h1
      subst h1
      exact jsURL_https_prefix_scheme (List.prefix_append _ _) heq
    · cases h

theorem normalizeUrl_scheme_default_witness :
    (⟨Scheme.https, "http".data, none, [[], "example.com".data], none, none⟩
        : URLRec).scheme = Scheme.https :=
  normalizeUrl_scheme_default "HTTP://example.com"
    ⟨Scheme.https, "http".data, none, [[], "example.com".data], none, none⟩
    (by rfl) (by rfl)
